import Mathlib

/-!
Shallow embedding of `weighted_elo.py` (multiplayer weighted Elo ratings).

Python dictionaries (`ranks`, `ratings`, score maps) are embedded as
association lists `List (String × _)`; the full rating map being a total
`String → ℝ`.  Exact rational/real arithmetic stands in for Python floats;
Python operations that can raise (`ZeroDivisionError`, a failing dict
comprehension) are embedded as `Option`-valued functions returning `none`
exactly when the Python code raises.
-/

set_option maxHeartbeats 1000000

/-- Lookup in an association list: `d[k]`, `some` iff the key is present. -/
def lookupKey {β : Type} (k : String) : List (String × β) → Option β
  | [] => none
  | q :: qs => if q.1 = k then some q.2 else lookupKey k qs

/-- The comparison key of `sorted(ranks.items(), key = lambda x: x[1])`:
sort the items of the rank dictionary by rank value. -/
def rankLE (a b : String × Int) : Prop := a.2 ≤ b.2

instance : DecidableRel rankLE := fun a b => Int.decLe a.2 b.2

instance : IsTotal (String × Int) rankLE := ⟨fun a b => Int.le_total a.2 b.2⟩

instance : IsTrans (String × Int) rankLE := ⟨fun _ _ _ h h2 => le_trans h h2⟩

/-- Inner `while` loop of the ties scan (lines 90-91 of the source):
starting from `pos`, advance while `pos < len(ties_vector) - 1 and
ties_vector[pos + 1]`; returns the final value of `pos`.  `fuel` is an
explicit bound on the number of iterations; every call supplies
`fuel = ties.length`, which always suffices. -/
def tieRunEnd (ties : List Bool) : Nat → Nat → Nat
  | 0, pos => pos
  | fuel + 1, pos =>
    if pos + 1 < ties.length ∧ ties.getD (pos + 1) false = true then
      tieRunEnd ties fuel (pos + 1)
    else pos

/-- Outer `while` loop of the ties scan (lines 85-93 of the source):
walk `pos` over `ties_vector`; on a `True` entry, run the inner loop to the
end `e` of the run, record the interval `(pos, e + 2)` of tied positions in
the score vector, and resume at `e + 1`.  `fuel` bounds the number of outer
iterations; every call supplies `fuel = ties.length`, which always
suffices since `pos` strictly increases. -/
def tiesScan (ties : List Bool) : Nat → Nat → List (Nat × Nat)
  | 0, _ => []
  | fuel + 1, pos =>
    if pos < ties.length then
      if ties.getD pos false = true then
        let e := tieRunEnd ties ties.length pos
        (pos, e + 2) :: tiesScan ties fuel (e + 1)
      else tiesScan ties fuel (pos + 1)
    else []

/-- One tie interval applied to the raw scores (lines 97-99 of the source):
`scores_raw[a:b] = [mean(scores_raw[a:b])] * (b - a)`. -/
def applyInterval (scores : List ℚ) (iv : Nat × Nat) : List ℚ :=
  let s := (scores.drop iv.1).take (iv.2 - iv.1)
  let m := s.sum / (s.length : ℚ)
  scores.take iv.1 ++ List.replicate (iv.2 - iv.1) m ++ scores.drop iv.2

/-- Local variable `ordered_ranks` (line 78): rank items sorted by rank value. -/
def orderedRanks (ranks : List (String × Int)) : List (String × Int) :=
  List.insertionSort rankLE ranks

/-- Local variable `rank_vector` (line 79): the sorted rank values. -/
def rankVec (ranks : List (String × Int)) : List Int :=
  (orderedRanks ranks).map Prod.snd

/-- Local variable `ties_vector` (line 82): whether elements `n` and `n + 1`
of the rank vector are equal. -/
def tiesVec (ranks : List (String × Int)) : List Bool :=
  List.zipWith (fun a b => a == b) (rankVec ranks) (rankVec ranks).tail

/-- Local variable `ties_intervals` (lines 85-93): the tie intervals found
by the while-loop scan. -/
def tieIvs (ranks : List (String × Int)) : List (Nat × Nat) :=
  tiesScan (tiesVec ranks) (tiesVec ranks).length 0

/-- Local variable `scores_raw` before the tie loop (line 96):
`list(reversed(range(len(rank_vector))))`, i.e. `n-1, n-2, ..., 0`. -/
def scoresRaw (ranks : List (String × Int)) : List ℚ :=
  ((List.range (rankVec ranks).length).reverse).map (fun i : Nat => (i : ℚ))

/-- Local variable `scores_raw` after the tie loop (lines 97-99): each tie
interval replaced by its mean, in order. -/
def scoresTied (ranks : List (String × Int)) : List ℚ :=
  (tieIvs ranks).foldl applyInterval (scoresRaw ranks)

/-- `get_actual_scores_multiplayer` (source lines 69-105).  Sorts the rank
items by rank value, builds the boolean ties vector, finds the maximal tie
runs, assigns raw scores `n-1, ..., 0`, replaces each tie block by its mean,
and normalizes by the sum.  Returns `none` exactly when Python raises, i.e.
when the final normalization (line 102) divides a nonempty score vector by
a zero sum. -/
def get_actual_scores_multiplayer (ranks : List (String × Int)) :
    Option (List (String × ℚ)) :=
  if scoresTied ranks ≠ [] ∧ (scoresTied ranks).sum = 0 then none
  else some (((orderedRanks ranks).map Prod.fst).zip
    ((scoresTied ranks).map (fun i => i / (scoresTied ranks).sum)))

/-- Structural invariant of the list of tie intervals produced by the scan,
relative to a lower bound `lo` for the next interval start: each interval
`(a, b)` starts at or after `lo`, covers at least two score positions,
stays inside the score vector (of length `ties.length + 1`), consists of
positions whose ties-vector entries are all `true`, and is right-maximal;
consecutive intervals are disjoint and ordered. -/
def IvProps (ties : List Bool) : Nat → List (Nat × Nat) → Prop
  | _, [] => True
  | lo, (a, b) :: rest =>
    lo ≤ a ∧ a + 2 ≤ b ∧ b ≤ ties.length + 1 ∧
    (∀ j, a ≤ j → j + 1 < b → ties.getD j false = true) ∧
    (b ≤ ties.length → ties.getD (b - 1) false = false) ∧
    IvProps ties b rest

/-- The mean of the slice `l[a:b]`, as computed by `statistics.mean`. -/
def ivMean (l : List ℚ) (a b : Nat) : ℚ :=
  ((l.drop a).take (b - a)).sum / (((l.drop a).take (b - a)).length : ℚ)

/-- Minimal interval-chain invariant needed to reason about the fold of
`applyInterval` over the tie intervals: intervals are nonempty, in bounds
for a score vector of length `n`, ordered, and pairwise disjoint. -/
def ChainIv (n : Nat) : Nat → List (Nat × Nat) → Prop
  | _, [] => True
  | lo, (a, b) :: rest => lo ≤ a ∧ a < b ∧ b ≤ n ∧ ChainIv n b rest

/-! ### The probability models, expected scores and the rating fold -/

/-- `math.erf`: the Gauss error function,
`erf x = 2 / sqrt pi * integral of exp (-t ^ 2) for t from 0 to x`. -/
noncomputable def erf (x : ℝ) : ℝ :=
  2 / Real.sqrt Real.pi * ∫ t in (0:ℝ)..x, Real.exp (-t ^ 2)

/-- `p_normal` (source lines 15-28): the CDF of a centered normal with
standard deviation `c * sqrt 2`, via `math.erf`; the spread coefficient
`c` stands for the global `std_dev_coefficient`. -/
noncomputable def p_normal (c : ℝ) (x : ℝ) : ℝ :=
  1 / 2 * (1 + erf (x / (Real.sqrt 2 * c) / Real.sqrt 2))

/-- `p_logistic` (source lines 31-44): the logistic probability function
with base `b` (the global `log_base`) and spread coefficient `c` (the
global `std_dev_coefficient`). -/
noncomputable def p_logistic (b c : ℝ) (x : ℝ) : ℝ :=
  1 / (1 + b ^ (-x / c))

/-- Global `log_base` (line 153): `sqrt 10`. -/
noncomputable def log_base : ℝ := Real.sqrt 10

/-- Global `std_dev_coefficient` (line 158): 200. -/
noncomputable def std_dev_coefficient : ℝ := 200

/-- Global `game_points_coefficient` (line 162): 32. -/
noncomputable def game_points_coefficient : ℝ := 32

/-- Global `elo_starting_score` (line 170): 0. -/
noncomputable def elo_starting_score : ℝ := 0

/-- Global `p_function` (line 167): the active probability model,
`p_logistic` with the default globals. -/
noncomputable def p_function : ℝ → ℝ :=
  p_logistic log_base std_dev_coefficient

/-- `get_expected_score_multiplayer` (source lines 47-66), with the active
probability function `P` passed explicitly in place of the global
`p_function` and the ratings dict as an association list.  Returns `none`
exactly when Python raises: a `KeyError` when the player is absent from
the ratings dict, or a `ZeroDivisionError` from the division by
`math.comb(len(ratings), 2)` when that count is 0. -/
noncomputable def get_expected_score_multiplayer (P : ℝ → ℝ)
    (player : String) (ratings : List (String × ℝ)) : Option ℝ :=
  match lookupKey player ratings with
  | none => none
  | some rp =>
    let scoreDiffs :=
      (ratings.filter (fun q => q.1 != player)).map (fun q => rp - q.2)
    let expectedByMatchUp := scoreDiffs.map P
    if Nat.choose ratings.length 2 = 0 then none
    else some (expectedByMatchUp.sum / (Nat.choose ratings.length 2 : ℝ))

/-- A dict comprehension whose body may raise, e.g.
`{player: get_expected_score_multiplayer(player, initial_ratings) for
player in players}`: `none` as soon as one element fails. -/
def optionMapList {α β : Type} (f : α → Option β) : List α → Option (List β)
  | [] => some []
  | a :: l =>
    match f a, optionMapList f l with
    | some b, some bs => some (b :: bs)
    | _, _ => none

/-- `get_rating_changes_multiplayer` (source lines 108-130): per-player
rating changes `(len(players) - 1) * K * (actual - expected)` for one
trial, from the full ratings map restricted to the trial's players. -/
noncomputable def get_rating_changes_multiplayer (P : ℝ → ℝ)
    (ratings : String → ℝ) (ranks : List (String × Int))
    (game_points_coef : ℝ) : Option (List (String × ℝ)) :=
  let players := ranks.map Prod.fst
  let initial_ratings : List (String × ℝ) :=
    players.map (fun p => (p, ratings p))
  match optionMapList (fun p =>
      (get_expected_score_multiplayer P p initial_ratings).map
        (fun e => (p, e))) players with
  | none => none
  | some expected_scores =>
    match get_actual_scores_multiplayer ranks with
    | none => none
    | some actual_scores =>
      let rating_changes_raw := players.map (fun p =>
        (p, game_points_coef * ((((lookupKey p actual_scores).getD 0 : ℚ) : ℝ) -
          (lookupKey p expected_scores).getD 0)))
      let rating_changes := players.map (fun p =>
        (p, ((players.length : ℝ) - 1) *
          (lookupKey p rating_changes_raw).getD 0))
      some rating_changes

/-- `weight_function` (source lines 133-142): currently a placeholder that
returns the raw weight unchanged (linear weighting), ignoring `change`. -/
def weight_function (weight : ℝ) (change : ℝ := 0) : ℝ := weight

/-- One iteration of the rating fold (source lines 218-223): compute the
trial's rating changes, weight each change as
`weight_function(weight, change) * change`, and add the weighted changes
to the running ratings map.  `none` when the rating changes cannot be
computed. -/
noncomputable def processTrial (P : ℝ → ℝ) (game_points_coef : ℝ)
    (ratings : String → ℝ) (ranks : List (String × Int)) (weight : ℝ) :
    Option (String → ℝ) :=
  match get_rating_changes_multiplayer P ratings ranks game_points_coef with
  | none => none
  | some rating_changes =>
    let rating_changes_weighted := rating_changes.map (fun oc =>
      (oc.1, weight_function weight oc.2 * oc.2))
    some (rating_changes_weighted.foldl
      (fun r oc => fun s => if s = oc.1 then r s + oc.2 else r s) ratings)

/-- The numerator of `get_expected_score_multiplayer`: the sum of
`P(rating[player] - rating[opponent])` over the other entries. -/
noncomputable def rowSum (P : ℝ → ℝ) (player : String) (rp : ℝ)
    (ratings : List (String × ℝ)) : ℝ :=
  (((ratings.filter (fun q => q.1 != player)).map (fun q => rp - q.2)).map
    P).sum

/-- C6: the rank mapping `{A: 1, B: 2, C: 2, D: 4}` yields exactly the
actual scores `{A: 1/2, B: 1/4, C: 1/4, D: 0}`: raw scores `[3, 2, 1, 0]`
on the rank-sorted positions, the run of the two rank-2 positions replaced
by its mean giving `[3, 3/2, 3/2, 0]`, then normalized by the sum 6. -/
theorem actual_scores_tie_example :
    get_actual_scores_multiplayer [("A", 1), ("B", 2), ("C", 2), ("D", 4)] =
      some [("A", 1/2), ("B", 1/4), ("C", 1/4), ("D", 0)] := by
  norm_num [get_actual_scores_multiplayer, scoresTied, scoresRaw, tieIvs,
    tiesVec, rankVec, orderedRanks, tiesScan, tieRunEnd, applyInterval,
    List.insertionSort, List.orderedInsert, rankLE, List.range_succ,
    List.replicate, List.zip_cons_cons]

/-! ### Properties of the ties scan -/

theorem tieRunEnd_ge (ties : List Bool) (fuel pos : Nat) :
    pos ≤ tieRunEnd ties fuel pos := by
  induction fuel generalizing pos with
  | zero => simp [tieRunEnd]
  | succ f ih =>
    simp only [tieRunEnd]
    split
    · exact le_trans (Nat.le_succ pos) (ih (pos + 1))
    · exact le_refl pos

theorem tieRunEnd_lt_length (ties : List Bool) (fuel pos : Nat)
    (h : pos < ties.length) : tieRunEnd ties fuel pos < ties.length := by
  induction fuel generalizing pos with
  | zero => simpa [tieRunEnd] using h
  | succ f ih =>
    simp only [tieRunEnd]
    split
    case isTrue hc => exact ih (pos + 1) hc.1
    case isFalse => exact h

theorem tieRunEnd_run (ties : List Bool) (fuel pos : Nat)
    (hpos : ties.getD pos false = true) :
    ∀ j, pos ≤ j → j ≤ tieRunEnd ties fuel pos → ties.getD j false = true := by
  induction fuel generalizing pos with
  | zero =>
    intro j h1 h2
    simp only [tieRunEnd] at h2
    have : j = pos := le_antisymm h2 h1
    simpa [this] using hpos
  | succ f ih =>
    intro j h1 h2
    simp only [tieRunEnd] at h2
    by_cases hc : pos + 1 < ties.length ∧ ties.getD (pos + 1) false = true
    · rw [if_pos hc] at h2
      rcases Nat.eq_or_lt_of_le h1 with h | h
      · simpa [← h] using hpos
      · exact ih (pos + 1) hc.2 j h h2
    · rw [if_neg hc] at h2
      have : j = pos := le_antisymm h2 h1
      simpa [this] using hpos

theorem tieRunEnd_stop (ties : List Bool) (fuel pos : Nat)
    (hfuel : ties.length ≤ fuel + pos) :
    ¬(tieRunEnd ties fuel pos + 1 < ties.length ∧
      ties.getD (tieRunEnd ties fuel pos + 1) false = true) := by
  induction fuel generalizing pos with
  | zero =>
    simp only [tieRunEnd]
    intro h
    omega
  | succ f ih =>
    simp only [tieRunEnd]
    split
    case isTrue hc => exact ih (pos + 1) (by omega)
    case isFalse hc => exact hc

theorem ivProps_mono (ties : List Bool) (lo lo2 : Nat) (l : List (Nat × Nat))
    (h : IvProps ties lo l) (hle : lo2 ≤ lo) : IvProps ties lo2 l := by
  cases l with
  | nil => trivial
  | cons iv rest =>
    obtain ⟨a, b⟩ := iv
    exact ⟨le_trans hle h.1, h.2⟩

theorem tiesScan_props (ties : List Bool) (fuel : Nat) :
    ∀ pos, ties.length ≤ fuel + pos →
      IvProps ties pos (tiesScan ties fuel pos) := by
  induction fuel using Nat.strong_induction_on with
  | _ fuel ih =>
    intro pos hfuel
    match fuel with
    | 0 => simp [tiesScan, IvProps]
    | f + 1 =>
      simp only [tiesScan]
      split
      case isFalse => simp [IvProps]
      case isTrue hlt =>
        split
        case isFalse htie =>
          exact ivProps_mono ties (pos + 1) pos _
            (ih f (by omega) (pos + 1) (by omega)) (Nat.le_succ pos)
        case isTrue htie =>
          have hge := tieRunEnd_ge ties ties.length pos
          have hlt2 := tieRunEnd_lt_length ties ties.length pos hlt
          have hstop := tieRunEnd_stop ties ties.length pos (by omega)
          set e := tieRunEnd ties ties.length pos with he
          refine ⟨le_refl pos, by omega, by omega, ?_, ?_, ?_⟩
          · intro j h1 h2
            exact tieRunEnd_run ties ties.length pos htie j h1 (by omega)
          · intro hb
            have h1 : e + 1 < ties.length := by omega
            have h2 : ¬ ties.getD (e + 1) false = true := fun h => hstop ⟨h1, h⟩
            simpa using h2
          · -- the tail of the scan, restarted at `e + 1`
            match f with
            | 0 => simp [tiesScan, IvProps]
            | g + 1 =>
              simp only [tiesScan]
              split
              case isFalse => simp [IvProps]
              case isTrue hlt3 =>
                have h2 : ¬ ties.getD (e + 1) false = true :=
                  fun h => hstop ⟨hlt3, h⟩
                rw [if_neg h2]
                exact ih g (by omega) (e + 2) (by omega)

theorem tiesScan_cover (ties : List Bool) (fuel : Nat) :
    ∀ pos, ties.length ≤ fuel + pos →
      ∀ j, pos ≤ j → j < ties.length → ties.getD j false = true →
      ∃ iv ∈ tiesScan ties fuel pos, iv.1 ≤ j ∧ j + 2 ≤ iv.2 := by
  induction fuel with
  | zero =>
    intro pos hfuel j h1 h2 _
    omega
  | succ f ih =>
    intro pos hfuel j h1 h2 hj
    simp only [tiesScan]
    rw [if_pos (by omega : pos < ties.length)]
    by_cases htie : ties.getD pos false = true
    · rw [if_pos htie]
      have hge := tieRunEnd_ge ties ties.length pos
      have hstop := tieRunEnd_stop ties ties.length pos (by omega)
      set e := tieRunEnd ties ties.length pos with he
      by_cases hje : j ≤ e
      · exact ⟨(pos, e + 2), List.mem_cons_self _ _, h1, by omega⟩
      · have hne : j ≠ e + 1 := by
          intro hEq
          exact hstop ⟨by omega, by rwa [← hEq]⟩
        obtain ⟨iv, hmem, hiv⟩ :=
          ih (e + 1) (by omega) j (by omega) h2 hj
        exact ⟨iv, List.mem_cons_of_mem _ hmem, hiv⟩
    · rw [if_neg htie]
      have hne : j ≠ pos := by
        intro hEq
        rw [hEq] at hj
        exact htie hj
      exact ih (pos + 1) (by omega) j (by omega) h2 hj

/-! ### Effect of applying the tie intervals to the raw scores -/

theorem applyInterval_eq (l : List ℚ) (a b : Nat) :
    applyInterval l (a, b) =
      l.take a ++ List.replicate (b - a) (ivMean l a b) ++ l.drop b := rfl

theorem slice_length (l : List ℚ) (a b : Nat) (h1 : a ≤ b) (h2 : b ≤ l.length) :
    ((l.drop a).take (b - a)).length = b - a := by
  simp only [List.length_take, List.length_drop]
  omega

theorem drop_eq_slice_append (l : List ℚ) (a b : Nat) (h1 : a ≤ b) :
    l.drop a = (l.drop a).take (b - a) ++ l.drop b := by
  conv_lhs => rw [← List.take_append_drop (b - a) (l.drop a)]
  rw [List.drop_drop]
  congr 2
  omega

theorem length_applyInterval (l : List ℚ) (a b : Nat) (h1 : a < b)
    (h2 : b ≤ l.length) : (applyInterval l (a, b)).length = l.length := by
  simp only [applyInterval, List.length_append, List.length_take,
    List.length_replicate, List.length_drop]
  omega

theorem sum_applyInterval (l : List ℚ) (a b : Nat) (h1 : a < b)
    (h2 : b ≤ l.length) : (applyInterval l (a, b)).sum = l.sum := by
  have hlen := slice_length l a b (le_of_lt h1) h2
  have hv : (List.replicate (b - a) (ivMean l a b)).sum =
      ((l.drop a).take (b - a)).sum := by
    rw [List.sum_replicate, nsmul_eq_mul, ivMean, hlen]
    rw [mul_div_cancel₀]
    exact Nat.cast_ne_zero.mpr (by omega)
  rw [applyInterval_eq]
  conv_rhs => rw [← List.take_append_drop a l,
    drop_eq_slice_append l a b (le_of_lt h1)]
  simp only [List.sum_append, hv]
  ring

theorem applyInterval_getElem (l : List ℚ) (a b : Nat) (h1 : a < b)
    (h2 : b ≤ l.length) (i : Nat) :
    (applyInterval l (a, b))[i]? =
      if a ≤ i ∧ i < b then some (ivMean l a b) else l[i]? := by
  have hta : (l.take a).length = a := by
    simp only [List.length_take]
    omega
  rw [applyInterval_eq, List.append_assoc]
  by_cases hia : i < a
  · rw [if_neg (by omega)]
    rw [List.getElem?_append_left (by rw [hta]; omega)]
    exact List.getElem?_take_of_lt hia
  · rw [List.getElem?_append_right (by rw [hta]; omega), hta]
    by_cases hib : i < b
    · rw [if_pos ⟨by omega, hib⟩]
      rw [List.getElem?_append_left (by simp only [List.length_replicate]; omega)]
      exact List.getElem?_replicate_of_lt (by omega)
    · rw [if_neg (by omega)]
      rw [List.getElem?_append_right (by simp only [List.length_replicate]; omega)]
      rw [List.length_replicate, List.getElem?_drop]
      congr 1
      omega

theorem ivProps_chainIv (ties : List Bool) (l : List (Nat × Nat)) :
    ∀ lo, IvProps ties lo l → ChainIv (ties.length + 1) lo l := by
  induction l with
  | nil => intro lo _; trivial
  | cons iv rest ih =>
    intro lo h
    obtain ⟨a, b⟩ := iv
    obtain ⟨hlo, hab, hble, _, _, hrest⟩ := h
    exact ⟨hlo, by omega, hble, ih b hrest⟩

theorem chainIv_mem (l : List (Nat × Nat)) :
    ∀ n lo, ChainIv n lo l → ∀ iv ∈ l, lo ≤ iv.1 ∧ iv.1 < iv.2 ∧ iv.2 ≤ n := by
  induction l with
  | nil => intro n lo _ iv h; cases h
  | cons iv0 rest ih =>
    intro n lo h iv hm
    obtain ⟨a, b⟩ := iv0
    obtain ⟨hlo, hab, hbn, hrest⟩ := h
    rcases List.mem_cons.mp hm with h0 | h0
    · rw [h0]
      exact ⟨hlo, hab, hbn⟩
    · have := ih n b hrest iv h0
      exact ⟨by omega, this.2⟩

theorem foldl_applyInterval_length (ivs : List (Nat × Nat)) :
    ∀ (l : List ℚ) lo, ChainIv l.length lo ivs →
      (ivs.foldl applyInterval l).length = l.length := by
  induction ivs with
  | nil => intro l lo _; rfl
  | cons iv rest ih =>
    intro l lo h
    obtain ⟨a, b⟩ := iv
    have hlen := length_applyInterval l a b h.2.1 h.2.2.1
    have hc : ChainIv (applyInterval l (a, b)).length b rest := by
      rw [hlen]; exact h.2.2.2
    rw [List.foldl_cons, ih (applyInterval l (a, b)) b hc, hlen]

theorem foldl_applyInterval_sum (ivs : List (Nat × Nat)) :
    ∀ (l : List ℚ) lo, ChainIv l.length lo ivs →
      (ivs.foldl applyInterval l).sum = l.sum := by
  induction ivs with
  | nil => intro l lo _; rfl
  | cons iv rest ih =>
    intro l lo h
    obtain ⟨a, b⟩ := iv
    have hlen := length_applyInterval l a b h.2.1 h.2.2.1
    have hc : ChainIv (applyInterval l (a, b)).length b rest := by
      rw [hlen]; exact h.2.2.2
    rw [List.foldl_cons, ih (applyInterval l (a, b)) b hc,
      sum_applyInterval l a b h.2.1 h.2.2.1]

theorem foldl_applyInterval_untouched (ivs : List (Nat × Nat)) :
    ∀ (l : List ℚ) lo i, ChainIv l.length lo ivs → i < lo →
      (ivs.foldl applyInterval l)[i]? = l[i]? := by
  induction ivs with
  | nil => intro l lo i _ _; rfl
  | cons iv rest ih =>
    intro l lo i h hi
    obtain ⟨a, b⟩ := iv
    obtain ⟨hlo, hab, hbn, hrest⟩ := h
    have hlen := length_applyInterval l a b hab hbn
    have hc : ChainIv (applyInterval l (a, b)).length b rest := by
      rw [hlen]; exact hrest
    rw [List.foldl_cons, ih (applyInterval l (a, b)) b i hc (by omega)]
    rw [applyInterval_getElem l a b hab hbn i]
    rw [if_neg (by omega)]

theorem drop_applyInterval (l : List ℚ) (a b : Nat) (h1 : a < b)
    (h2 : b ≤ l.length) (j : Nat) (hj : b ≤ j) :
    (applyInterval l (a, b)).drop j = l.drop j := by
  apply List.ext_getElem?
  intro i
  rw [List.getElem?_drop, List.getElem?_drop]
  rw [applyInterval_getElem l a b h1 h2 (j + i)]
  rw [if_neg (by omega)]

theorem ivMean_applyInterval (l : List ℚ) (a b a2 b2 : Nat) (h1 : a < b)
    (h2 : b ≤ l.length) (h3 : b ≤ a2) :
    ivMean (applyInterval l (a, b)) a2 b2 = ivMean l a2 b2 := by
  unfold ivMean
  rw [drop_applyInterval l a b h1 h2 a2 h3]

theorem foldl_applyInterval_covered (ivs : List (Nat × Nat)) :
    ∀ (l : List ℚ) lo a b i, ChainIv l.length lo ivs → (a, b) ∈ ivs →
      a ≤ i → i < b →
      (ivs.foldl applyInterval l)[i]? = some (ivMean l a b) := by
  induction ivs with
  | nil => intro l lo a b i _ hm; cases hm
  | cons iv rest ih =>
    intro l lo a b i h hm h1 h2
    obtain ⟨a0, b0⟩ := iv
    have hlen := length_applyInterval l a0 b0 h.2.1 h.2.2.1
    have hc : ChainIv (applyInterval l (a0, b0)).length b0 rest := by
      rw [hlen]; exact h.2.2.2
    rcases List.mem_cons.mp hm with h0 | h0
    · obtain ⟨rfl, rfl⟩ := Prod.mk.injEq .. ▸ (Prod.ext_iff.mp h0)
      rw [List.foldl_cons]
      rw [foldl_applyInterval_untouched rest (applyInterval l (a, b)) b i hc h2]
      rw [applyInterval_getElem l a b h.2.1 h.2.2.1 i, if_pos ⟨h1, h2⟩]
    · have hmem := chainIv_mem rest l.length b0 h.2.2.2 (a, b) h0
      rw [List.foldl_cons]
      rw [ih (applyInterval l (a0, b0)) b0 a b i hc h0 h1 h2]
      rw [ivMean_applyInterval l a0 b0 a b h.2.1 h.2.2.1 hmem.1]

/-! ### Lengths and sums along the actual-score pipeline -/

theorem length_orderedRanks (ranks : List (String × Int)) :
    (orderedRanks ranks).length = ranks.length :=
  (List.perm_insertionSort rankLE ranks).length_eq

theorem length_rankVec (ranks : List (String × Int)) :
    (rankVec ranks).length = ranks.length := by
  rw [rankVec, List.length_map, length_orderedRanks]

theorem length_tiesVec (ranks : List (String × Int)) :
    (tiesVec ranks).length = ranks.length - 1 := by
  rw [tiesVec, List.length_zipWith, List.length_tail, length_rankVec]
  omega

theorem length_scoresRaw (ranks : List (String × Int)) :
    (scoresRaw ranks).length = ranks.length := by
  rw [scoresRaw, List.length_map, List.length_reverse, List.length_range,
    length_rankVec]

theorem ivProps_tieIvs (ranks : List (String × Int)) :
    IvProps (tiesVec ranks) 0 (tieIvs ranks) :=
  tiesScan_props (tiesVec ranks) (tiesVec ranks).length 0 (by omega)

theorem chain_tieIvs (ranks : List (String × Int)) :
    ChainIv (scoresRaw ranks).length 0 (tieIvs ranks) := by
  have hc := ivProps_chainIv (tiesVec ranks) (tieIvs ranks) 0 (ivProps_tieIvs ranks)
  by_cases h0 : ranks.length = 0
  · have hz : (tiesVec ranks).length = 0 := by rw [length_tiesVec]; omega
    have : tieIvs ranks = [] := by rw [tieIvs, hz, tiesScan]
    rw [this]
    trivial
  · have hl : (tiesVec ranks).length + 1 = (scoresRaw ranks).length := by
      rw [length_tiesVec, length_scoresRaw]
      omega
    rwa [hl] at hc

theorem length_scoresTied (ranks : List (String × Int)) :
    (scoresTied ranks).length = ranks.length := by
  rw [scoresTied, foldl_applyInterval_length _ _ 0 (chain_tieIvs ranks),
    length_scoresRaw]

theorem sum_range_cast (n : Nat) :
    ((List.range n).map (fun i : Nat => (i : ℚ))).sum = n * (n - 1) / 2 := by
  induction n with
  | zero => norm_num
  | succ m ih =>
    rw [List.range_succ, List.map_append, List.sum_append, ih]
    push_cast
    simp
    ring

theorem sum_scoresRaw (ranks : List (String × Int)) :
    (scoresRaw ranks).sum =
      (ranks.length : ℚ) * ((ranks.length : ℚ) - 1) / 2 := by
  rw [scoresRaw, List.map_reverse, List.sum_reverse, sum_range_cast,
    length_rankVec]

theorem sum_scoresTied (ranks : List (String × Int)) :
    (scoresTied ranks).sum =
      (ranks.length : ℚ) * ((ranks.length : ℚ) - 1) / 2 := by
  rw [scoresTied, foldl_applyInterval_sum _ _ 0 (chain_tieIvs ranks),
    sum_scoresRaw]

theorem sum_scoresTied_pos (ranks : List (String × Int))
    (hn : 2 ≤ ranks.length) : 0 < (scoresTied ranks).sum := by
  rw [sum_scoresTied]
  have h2 : (2 : ℚ) ≤ (ranks.length : ℚ) := by exact_mod_cast hn
  apply div_pos (mul_pos (by linarith) (by linarith)) (by norm_num)

theorem get_actual_scores_eq (ranks : List (String × Int))
    (hn : 2 ≤ ranks.length) :
    get_actual_scores_multiplayer ranks =
      some (((orderedRanks ranks).map Prod.fst).zip
        ((scoresTied ranks).map (fun i => i / (scoresTied ranks).sum))) := by
  rw [get_actual_scores_multiplayer, if_neg]
  intro h
  exact absurd h.2 (ne_of_gt (sum_scoresTied_pos ranks hn))

theorem sum_map_div (l : List ℚ) (c : ℚ) :
    (l.map (fun x => x / c)).sum = l.sum / c := by
  induction l with
  | nil => simp
  | cons x t ih => simp [ih, add_div]

/-- C2: for every trial with at least 2 participants, the actual scores
returned by `get_actual_scores_multiplayer` sum to 1: the tie-averaging
fold preserves the raw-score sum `n * (n - 1) / 2`, which is exactly the
normalizer. -/
theorem actual_scores_sum_one (ranks : List (String × Int))
    (hn : 2 ≤ ranks.length) :
    ∃ l, get_actual_scores_multiplayer ranks = some l ∧
      (l.map Prod.snd).sum = 1 := by
  refine ⟨_, get_actual_scores_eq ranks hn, ?_⟩
  rw [List.map_snd_zip]
  · rw [sum_map_div, div_self (ne_of_gt (sum_scoresTied_pos ranks hn))]
  · rw [List.length_map, List.length_map, length_orderedRanks,
      length_scoresTied]

/-- Witness for C2 at the concrete trial `{A: 1, B: 2}`. -/
theorem actual_scores_sum_one_witness :
    2 ≤ ([("A", 1), ("B", 2)] : List (String × Int)).length ∧
      ∃ l, get_actual_scores_multiplayer [("A", 1), ("B", 2)] = some l ∧
        (l.map Prod.snd).sum = 1 :=
  ⟨by decide, actual_scores_sum_one [("A", 1), ("B", 2)] (by decide)⟩

/-! ### The actual-score values are constant on blocks of equal rank -/

theorem getElem_some_lt {α : Type} (l : List α) (i : Nat) (a : α)
    (h : l[i]? = some a) : i < l.length := by
  rcases Nat.lt_or_ge i l.length with h2 | h2
  · exact h2
  · rw [List.getElem?_eq_none h2] at h
    cases h

theorem sorted_orderedRanks (ranks : List (String × Int)) :
    (orderedRanks ranks).Sorted rankLE :=
  List.sorted_insertionSort rankLE ranks

theorem perm_orderedRanks (ranks : List (String × Int)) :
    (orderedRanks ranks).Perm ranks :=
  List.perm_insertionSort rankLE ranks

theorem rankVec_sorted (ranks : List (String × Int)) :
    (rankVec ranks).Sorted (fun a b : Int => a ≤ b) :=
  List.Pairwise.map Prod.snd (fun _ _ h => h) (sorted_orderedRanks ranks)

theorem rankVec_le_getD (ranks : List (String × Int)) (i j : Nat)
    (hij : i ≤ j) (hj : j < ranks.length) :
    (rankVec ranks).getD i 0 ≤ (rankVec ranks).getD j 0 := by
  have hlen := length_rankVec ranks
  rcases Nat.eq_or_lt_of_le hij with h | h
  · rw [h]
  · rw [List.getD_eq_getElem (rankVec ranks) 0 (by omega),
      List.getD_eq_getElem (rankVec ranks) 0 (by omega)]
    exact (List.pairwise_iff_getElem.mp (rankVec_sorted ranks)) i j
      (by omega) (by omega) h

theorem tiesVec_getD_eq (ranks : List (String × Int)) (k : Nat)
    (hk : k + 1 < ranks.length) :
    (tiesVec ranks).getD k false =
      ((rankVec ranks).getD k 0 == (rankVec ranks).getD (k + 1) 0) := by
  have hlen := length_rankVec ranks
  have hlt : k < (tiesVec ranks).length := by rw [length_tiesVec]; omega
  rw [List.getD_eq_getElem (tiesVec ranks) false hlt]
  have h1 : k < (rankVec ranks).length := by omega
  have h2 : k + 1 < (rankVec ranks).length := by omega
  have htail : k < (rankVec ranks).tail.length := by
    rw [List.length_tail]; omega
  have hz : (tiesVec ranks)[k]? =
      some ((rankVec ranks).getD k 0 == (rankVec ranks).getD (k + 1) 0) := by
    rw [tiesVec, List.getElem?_zipWith']
    rw [List.getElem?_tail, List.getElem?_eq_getElem h1, List.getElem?_eq_getElem h2]
    rw [List.getD_eq_getElem (rankVec ranks) 0 h1,
      List.getD_eq_getElem (rankVec ranks) 0 h2]
    rfl
  rw [List.getElem?_eq_getElem hlt] at hz
  exact Option.some_injective _ hz

theorem ivProps_mem (ties : List Bool) (l : List (Nat × Nat)) :
    ∀ lo, IvProps ties lo l → ∀ a b, (a, b) ∈ l →
      a + 2 ≤ b ∧ b ≤ ties.length + 1 ∧
      (∀ k, a ≤ k → k + 1 < b → ties.getD k false = true) ∧
      (b ≤ ties.length → ties.getD (b - 1) false = false) := by
  induction l with
  | nil => intro lo _ a b hm; cases hm
  | cons iv rest ih =>
    intro lo h a b hm
    obtain ⟨a0, b0⟩ := iv
    obtain ⟨_, hab, hble, hrun, hmax, hrest⟩ := h
    rcases List.mem_cons.mp hm with h0 | h0
    · obtain ⟨rfl, rfl⟩ := Prod.mk.injEq .. ▸ Prod.ext_iff.mp h0
      exact ⟨hab, hble, hrun, hmax⟩
    · exact ih b0 hrest a b h0

theorem scoresTied_getD_eq_of_lt (ranks : List (String × Int)) (i j : Nat)
    (hij : i < j) (hj : j < ranks.length)
    (hv : (rankVec ranks).getD i 0 = (rankVec ranks).getD j 0) :
    (scoresTied ranks).getD i 0 = (scoresTied ranks).getD j 0 := by
  have hlenT := length_tiesVec ranks
  have hlenR := length_scoresRaw ranks
  -- every adjacent pair between i and j is tied
  have hmid : ∀ k, i ≤ k → k < j → (tiesVec ranks).getD k false = true := by
    intro k h1 h2
    have e1 : (rankVec ranks).getD i 0 ≤ (rankVec ranks).getD k 0 :=
      rankVec_le_getD ranks i k h1 (by omega)
    have e2 : (rankVec ranks).getD k 0 ≤ (rankVec ranks).getD (k + 1) 0 :=
      rankVec_le_getD ranks k (k + 1) (by omega) (by omega)
    have e3 : (rankVec ranks).getD (k + 1) 0 ≤ (rankVec ranks).getD j 0 :=
      rankVec_le_getD ranks (k + 1) j (by omega) hj
    have : (rankVec ranks).getD k 0 = (rankVec ranks).getD (k + 1) 0 := by
      omega
    rw [tiesVec_getD_eq ranks k (by omega), this, beq_self_eq_true]
  -- position i is covered by some tie interval
  obtain ⟨iv, hmem, hiv1, hiv2⟩ :=
    tiesScan_cover (tiesVec ranks) (tiesVec ranks).length 0 (by omega) i
      (Nat.zero_le i) (by omega) (hmid i (le_refl i) hij)
  obtain ⟨a, b⟩ := iv
  have hprops := ivProps_mem (tiesVec ranks) (tieIvs ranks) 0
    (ivProps_tieIvs ranks) a b hmem
  -- j lies in the same interval
  have hjb : j < b := by
    by_contra hge
    push_neg at hge
    have hbL : b ≤ (tiesVec ranks).length := by omega
    have hfalse := hprops.2.2.2 hbL
    have htrue : (tiesVec ranks).getD (b - 1) false = true :=
      hmid (b - 1) (by omega) (by omega)
    rw [htrue] at hfalse
    cases hfalse
  have hchain := chain_tieIvs ranks
  have hcov_i := foldl_applyInterval_covered (tieIvs ranks) (scoresRaw ranks)
    0 a b i hchain hmem (by omega) (by omega)
  have hcov_j := foldl_applyInterval_covered (tieIvs ranks) (scoresRaw ranks)
    0 a b j hchain hmem (by omega) hjb
  rw [← scoresTied] at hcov_i hcov_j
  rw [List.getD_eq_getElem?_getD, List.getD_eq_getElem?_getD, hcov_i, hcov_j]

theorem scoresTied_getD_eq (ranks : List (String × Int)) (i j : Nat)
    (hi : i < ranks.length) (hj : j < ranks.length)
    (hv : (rankVec ranks).getD i 0 = (rankVec ranks).getD j 0) :
    (scoresTied ranks).getD i 0 = (scoresTied ranks).getD j 0 := by
  rcases Nat.lt_trichotomy i j with h | h | h
  · exact scoresTied_getD_eq_of_lt ranks i j h hj hv
  · rw [h]
  · exact (scoresTied_getD_eq_of_lt ranks j i h hi hv.symm).symm

/-! ### Association-list lookup lemmas -/

theorem lookupKey_eq_none {β : Type} (k : String) (l : List (String × β))
    (h : k ∉ l.map Prod.fst) : lookupKey k l = none := by
  induction l with
  | nil => rfl
  | cons q qs ih =>
    simp only [List.map_cons, List.mem_cons] at h
    push_neg at h
    rw [lookupKey, if_neg (fun hh => h.1 hh.symm), ih h.2]

theorem lookupKey_zip {β : Type} (keys : List String) :
    ∀ (vals : List β) (i : Nat) (k : String), keys.Nodup →
      keys.length = vals.length → keys[i]? = some k →
      lookupKey k (keys.zip vals) = vals[i]? := by
  induction keys with
  | nil => intro vals i k _ _ hk; cases hk
  | cons k0 kt ih =>
    intro vals i k hnd hlen hk
    cases vals with
    | nil => simp at hlen
    | cons v0 vt =>
      cases i with
      | zero =>
        simp only [List.getElem?_cons_zero, Option.some.injEq] at hk
        rw [List.zip_cons_cons, lookupKey, if_pos hk]
        simp
      | succ i =>
        simp only [List.getElem?_cons_succ] at hk
        have hkin : k ∈ kt := List.getElem?_mem hk
        have hne : k0 ≠ k := fun h => (List.nodup_cons.mp hnd).1 (h ▸ hkin)
        rw [List.zip_cons_cons, lookupKey, if_neg hne, List.getElem?_cons_succ]
        exact ih vt i k (List.nodup_cons.mp hnd).2 (by simpa using hlen) hk

theorem assoc_value_unique {β : Type} (l : List (String × β))
    (hnd : (l.map Prod.fst).Nodup) (k : String) (x y : β)
    (hx : (k, x) ∈ l) (hy : (k, y) ∈ l) : x = y := by
  induction l with
  | nil => cases hx
  | cons q qs ih =>
    simp only [List.map_cons, List.nodup_cons] at hnd
    rcases List.mem_cons.mp hx with h1 | h1 <;>
      rcases List.mem_cons.mp hy with h2 | h2
    · rw [← h1] at h2
      exact (Prod.ext_iff.mp h2).2.symm
    · exfalso
      apply hnd.1
      rw [← h1]
      simpa using List.mem_map_of_mem Prod.fst h2
    · exfalso
      apply hnd.1
      rw [← h2]
      simpa using List.mem_map_of_mem Prod.fst h1
    · exact ih hnd.2 h1 h2

theorem rankVec_eq_of_perm (r1 r2 : List (String × Int)) (h : r1.Perm r2) :
    rankVec r1 = rankVec r2 := by
  apply List.eq_of_perm_of_sorted ?_ (rankVec_sorted r1) (rankVec_sorted r2)
  exact ((perm_orderedRanks r1).map Prod.snd).trans
    ((h.map Prod.snd).trans ((perm_orderedRanks r2).map Prod.snd).symm)

theorem scoresTied_congr (r1 r2 : List (String × Int))
    (h : rankVec r1 = rankVec r2) : scoresTied r1 = scoresTied r2 := by
  rw [scoresTied, scoresTied, scoresRaw, scoresRaw, tieIvs, tieIvs,
    tiesVec, tiesVec, h]

/-- C7: the participant-to-score mapping returned by
`get_actual_scores_multiplayer` depends only on the set of
participant-rank pairs, not on the iteration order of the input mapping:
for permuted inputs (with distinct participants) every key is looked up to
the same score, and the success or failure of the call is also the same. -/
theorem actual_scores_perm_invariant (r1 r2 : List (String × Int))
    (k : String) (hperm : r1.Perm r2) (hnd : (r1.map Prod.fst).Nodup) :
    Option.map (fun l => lookupKey k l) (get_actual_scores_multiplayer r1) =
      Option.map (fun l => lookupKey k l) (get_actual_scores_multiplayer r2) := by
  have hv : rankVec r1 = rankVec r2 := rankVec_eq_of_perm r1 r2 hperm
  have hsc : scoresTied r1 = scoresTied r2 := scoresTied_congr r1 r2 hv
  rw [get_actual_scores_multiplayer, get_actual_scores_multiplayer, ← hsc]
  by_cases hg : scoresTied r1 ≠ [] ∧ (scoresTied r1).sum = 0
  · rw [if_pos hg, if_pos hg]
  · rw [if_neg hg, if_neg hg]
    simp only [Option.map_some']
    congr 1
    -- notation for both zips
    have hlen1 : ((orderedRanks r1).map Prod.fst).length = r1.length := by
      rw [List.length_map, length_orderedRanks]
    have hlen2 : ((orderedRanks r2).map Prod.fst).length = r1.length := by
      rw [List.length_map, length_orderedRanks, hperm.length_eq]
    have hlenv : ((scoresTied r1).map
        (fun i => i / (scoresTied r1).sum)).length = r1.length := by
      rw [List.length_map, length_scoresTied]
    have hnd2 : (r2.map Prod.fst).Nodup :=
      ((hperm.map Prod.fst).nodup_iff).mp hnd
    have hk1nd : ((orderedRanks r1).map Prod.fst).Nodup :=
      ((perm_orderedRanks r1).map Prod.fst).nodup_iff.mpr hnd
    have hk2nd : ((orderedRanks r2).map Prod.fst).Nodup :=
      ((perm_orderedRanks r2).map Prod.fst).nodup_iff.mpr hnd2
    by_cases hk : k ∈ r1.map Prod.fst
    · -- the key occurs: both lookups give the score at the key's position
      have hk1 : k ∈ (orderedRanks r1).map Prod.fst :=
        ((perm_orderedRanks r1).map Prod.fst).mem_iff.mpr hk
      have hk2 : k ∈ (orderedRanks r2).map Prod.fst :=
        ((perm_orderedRanks r2).map Prod.fst).mem_iff.mpr
          ((hperm.map Prod.fst).mem_iff.mp hk)
      obtain ⟨i1, hi1⟩ := List.getElem?_of_mem hk1
      obtain ⟨i2, hi2⟩ := List.getElem?_of_mem hk2
      rw [lookupKey_zip _ _ i1 k hk1nd (by rw [hlen1, hlenv]) hi1]
      rw [lookupKey_zip _ _ i2 k hk2nd (by rw [hlen2, hlenv]) hi2]
      -- extract the rank entries at those positions
      rw [List.getElem?_map] at hi1 hi2
      cases hp1 : (orderedRanks r1)[i1]? with
      | none => rw [hp1] at hi1; cases hi1
      | some p1 =>
      cases hp2 : (orderedRanks r2)[i2]? with
      | none => rw [hp2] at hi2; cases hi2
      | some p2 =>
      rw [hp1] at hi1
      rw [hp2] at hi2
      simp only [Option.map_some', Option.some.injEq] at hi1 hi2
      have hv1 : (rankVec r1)[i1]? = some p1.2 := by
        rw [rankVec, List.getElem?_map, hp1]
        rfl
      have hv2 : (rankVec r1)[i2]? = some p2.2 := by
        rw [hv, rankVec, List.getElem?_map, hp2]
        rfl
      have hm1 : p1 ∈ r1 :=
        (perm_orderedRanks r1).mem_iff.mp (List.getElem?_mem hp1)
      have hm2 : p2 ∈ r1 :=
        hperm.mem_iff.mpr ((perm_orderedRanks r2).mem_iff.mp
          (List.getElem?_mem hp2))
      have hps : p1.2 = p2.2 := by
        apply assoc_value_unique r1 hnd k
        · rw [← hi1, Prod.mk.eta]
          exact hm1
        · rw [← hi2, Prod.mk.eta]
          exact hm2
      have hb1 : i1 < r1.length := by
        have := getElem_some_lt (rankVec r1) i1 p1.2 hv1
        rwa [length_rankVec] at this
      have hb2 : i2 < r1.length := by
        have := getElem_some_lt (rankVec r1) i2 p2.2 hv2
        rwa [length_rankVec] at this
      have hgd : (rankVec r1).getD i1 0 = (rankVec r1).getD i2 0 := by
        rw [List.getD_eq_getElem?_getD, List.getD_eq_getElem?_getD, hv1, hv2,
          hps]
      have hsct := scoresTied_getD_eq r1 i1 i2 hb1 hb2 hgd
      have hsb1 : i1 < (scoresTied r1).length := by rw [length_scoresTied]; exact hb1
      have hsb2 : i2 < (scoresTied r1).length := by rw [length_scoresTied]; exact hb2
      rw [List.getElem?_map, List.getElem?_map]
      rw [List.getElem?_eq_getElem hsb1, List.getElem?_eq_getElem hsb2]
      rw [List.getD_eq_getElem _ 0 hsb1, List.getD_eq_getElem _ 0 hsb2] at hsct
      rw [hsct]
    · -- the key is absent from both zips
      have hk1 : k ∉ (orderedRanks r1).map Prod.fst := fun h =>
        hk (((perm_orderedRanks r1).map Prod.fst).mem_iff.mp h)
      have hk2 : k ∉ (orderedRanks r2).map Prod.fst := fun h =>
        hk ((hperm.map Prod.fst).mem_iff.mpr
          (((perm_orderedRanks r2).map Prod.fst).mem_iff.mp h))
      rw [lookupKey_eq_none, lookupKey_eq_none]
      · rwa [List.map_fst_zip _ _ (by rw [hlen2, hlenv])]
      · rwa [List.map_fst_zip _ _ (by rw [hlen1, hlenv])]

/-- Witness for C7: the trial `{A: 1, B: 1}` written in two different
orders gives the same score for `A`. -/
theorem actual_scores_perm_invariant_witness :
    ([("A", 1), ("B", 1)] : List (String × Int)).Perm [("B", 1), ("A", 1)] ∧
      ([("A", 1), ("B", 1)].map Prod.fst).Nodup ∧
      Option.map (fun l => lookupKey "A" l)
          (get_actual_scores_multiplayer [("A", 1), ("B", 1)]) =
        Option.map (fun l => lookupKey "A" l)
          (get_actual_scores_multiplayer [("B", 1), ("A", 1)]) :=
  ⟨List.Perm.swap _ _ _, by decide,
    actual_scores_perm_invariant _ _ "A" (List.Perm.swap _ _ _) (by decide)⟩

/-! ### Analytic facts about the error function -/

theorem exp_neg_sq_continuous : Continuous (fun t : ℝ => Real.exp (-t ^ 2)) :=
  Real.continuous_exp.comp (continuous_pow 2).neg

theorem exp_neg_sq_intervalIntegrable (a b : ℝ) :
    IntervalIntegrable (fun t : ℝ => Real.exp (-t ^ 2))
      MeasureTheory.volume a b :=
  exp_neg_sq_continuous.intervalIntegrable a b

theorem erf_zero : erf 0 = 0 := by
  rw [erf, intervalIntegral.integral_same, mul_zero]

theorem erf_neg (x : ℝ) : erf (-x) = -erf x := by
  rw [erf, erf, ← mul_neg]
  congr 1
  have h1 : (∫ t in (-x)..(0:ℝ), Real.exp (-t ^ 2)) =
      ∫ t in (0:ℝ)..x, Real.exp (-t ^ 2) := by
    have h2 : (∫ t in (0:ℝ)..x, Real.exp (-(-t) ^ 2)) =
        ∫ t in (-x)..(-(0:ℝ)), Real.exp (-t ^ 2) :=
      intervalIntegral.integral_comp_neg (fun t => Real.exp (-t ^ 2))
    simp only [neg_sq, neg_zero] at h2
    exact h2.symm
  rw [← h1, intervalIntegral.integral_symm]

theorem erf_strictMono : StrictMono erf := by
  intro x y hxy
  rw [erf, erf]
  have hpos : 0 < 2 / Real.sqrt Real.pi :=
    div_pos two_pos (Real.sqrt_pos.mpr Real.pi_pos)
  apply mul_lt_mul_of_pos_left ?_ hpos
  have hadd := intervalIntegral.integral_add_adjacent_intervals
    (exp_neg_sq_intervalIntegrable 0 x) (exp_neg_sq_intervalIntegrable x y)
  have hmid : 0 < ∫ t in x..y, Real.exp (-t ^ 2) :=
    intervalIntegral.intervalIntegral_pos_of_pos
      (exp_neg_sq_intervalIntegrable x y) (fun t => Real.exp_pos _) hxy
  linarith

theorem exp_neg_sq_integrable :
    MeasureTheory.Integrable (fun t : ℝ => Real.exp (-t ^ 2)) := by
  have h := @integrable_exp_neg_mul_sq 1 one_pos
  simpa using h

theorem integral_exp_neg_sq_Ioi_zero :
    (∫ t in Set.Ioi (0:ℝ), Real.exp (-t ^ 2)) = Real.sqrt Real.pi / 2 := by
  have h := integral_gaussian_Ioi 1
  simpa using h

theorem integral_exp_neg_sq_Ioi_pos (x : ℝ) :
    0 < ∫ t in Set.Ioi x, Real.exp (-t ^ 2) := by
  rw [MeasureTheory.setIntegral_pos_iff_support_of_nonneg_ae]
  · have hsupp : Function.support (fun t : ℝ => Real.exp (-t ^ 2)) =
        Set.univ := by
      apply Set.eq_univ_iff_forall.mpr
      intro t
      exact Function.mem_support.mpr (Real.exp_pos _).ne'
    rw [hsupp, Set.univ_inter, Real.volume_Ioi]
    simp
  · exact Filter.Eventually.of_forall (fun t => (Real.exp_pos _).le)
  · exact exp_neg_sq_integrable.integrableOn

theorem erf_lt_one (x : ℝ) : erf x < 1 := by
  rcases le_or_lt x 0 with h | h
  · have hmono := erf_strictMono.monotone h
    rw [erf_zero] at hmono
    linarith
  · have hsplit : (∫ t in Set.Ioc (0:ℝ) x, Real.exp (-t ^ 2)) +
        (∫ t in Set.Ioi x, Real.exp (-t ^ 2)) =
        ∫ t in Set.Ioi (0:ℝ), Real.exp (-t ^ 2) := by
      rw [← MeasureTheory.setIntegral_union (Set.Ioc_disjoint_Ioi le_rfl)
        measurableSet_Ioi exp_neg_sq_integrable.integrableOn
        exp_neg_sq_integrable.integrableOn]
      rw [Set.Ioc_union_Ioi_eq_Ioi h.le]
    have htail := integral_exp_neg_sq_Ioi_pos x
    have h0x : (∫ t in (0:ℝ)..x, Real.exp (-t ^ 2)) =
        ∫ t in Set.Ioc (0:ℝ) x, Real.exp (-t ^ 2) :=
      intervalIntegral.integral_of_le h.le
    have hlt : (∫ t in (0:ℝ)..x, Real.exp (-t ^ 2)) <
        Real.sqrt Real.pi / 2 := by
      rw [h0x, ← integral_exp_neg_sq_Ioi_zero]
      linarith
    have hpos : 0 < Real.sqrt Real.pi :=
      Real.sqrt_pos.mpr Real.pi_pos
    have hone : 2 / Real.sqrt Real.pi * (Real.sqrt Real.pi / 2) = 1 := by
      field_simp
    rw [erf, ← hone]
    exact mul_lt_mul_of_pos_left hlt (div_pos two_pos hpos)

theorem neg_one_lt_erf (x : ℝ) : -1 < erf x := by
  have h := erf_lt_one (-x)
  rw [erf_neg] at h
  linarith

/-! ### The probability model contract (both variants) -/

theorem p_normal_zero (c : ℝ) : p_normal c 0 = 1 / 2 := by
  rw [p_normal, zero_div, zero_div, erf_zero]
  norm_num

theorem p_normal_symm (c : ℝ) (x : ℝ) : p_normal c (-x) = 1 - p_normal c x := by
  rw [p_normal, p_normal, neg_div, neg_div, erf_neg]
  ring

theorem p_normal_strictMono (c : ℝ) (hc : 0 < c) : StrictMono (p_normal c) := by
  intro x y hxy
  rw [p_normal, p_normal]
  have hs2 : 0 < Real.sqrt 2 := Real.sqrt_pos.mpr (by norm_num)
  have harg : x / (Real.sqrt 2 * c) / Real.sqrt 2 <
      y / (Real.sqrt 2 * c) / Real.sqrt 2 := by
    apply div_lt_div_of_pos_right ?_ hs2
    exact div_lt_div_of_pos_right hxy (mul_pos hs2 hc)
  have := erf_strictMono harg
  linarith

theorem p_normal_mem_Ioo (c : ℝ) (x : ℝ) :
    p_normal c x ∈ Set.Ioo (0:ℝ) 1 := by
  rw [p_normal]
  constructor
  · have := neg_one_lt_erf (x / (Real.sqrt 2 * c) / Real.sqrt 2)
    linarith
  · have := erf_lt_one (x / (Real.sqrt 2 * c) / Real.sqrt 2)
    linarith

theorem p_logistic_zero (b c : ℝ) : p_logistic b c 0 = 1 / 2 := by
  rw [p_logistic, neg_zero, zero_div, Real.rpow_zero]
  norm_num

theorem rpow_term_pos (b y : ℝ) (hb : 0 < b) : 0 < b ^ y :=
  Real.rpow_pos_of_pos hb y

theorem p_logistic_mem_Ioo (b c : ℝ) (hb : 1 < b) (x : ℝ) :
    p_logistic b c x ∈ Set.Ioo (0:ℝ) 1 := by
  rw [p_logistic]
  have hpos : 0 < b ^ (-x / c) := rpow_term_pos b (-x / c) (by linarith)
  constructor
  · positivity
  · rw [div_lt_one (by linarith)]
    linarith

theorem p_logistic_strictMono (b c : ℝ) (hb : 1 < b) (hc : 0 < c) :
    StrictMono (p_logistic b c) := by
  intro x y hxy
  rw [p_logistic, p_logistic]
  have hexp : -y / c < -x / c :=
    div_lt_div_of_pos_right (by linarith) hc
  have hlt : b ^ (-y / c) < b ^ (-x / c) :=
    (Real.rpow_lt_rpow_left_iff hb).mpr hexp
  have hy : 0 < b ^ (-y / c) := rpow_term_pos b _ (by linarith)
  exact one_div_lt_one_div_of_lt (by linarith) (by linarith)

theorem p_logistic_symm (b c : ℝ) (hb : 0 < b) (x : ℝ) :
    p_logistic b c (-x) = 1 - p_logistic b c x := by
  rw [p_logistic, p_logistic, neg_neg]
  have hneg : -x / c = -(x / c) := by ring
  rw [hneg, Real.rpow_neg hb.le]
  have hu : 0 < b ^ (x / c) := rpow_term_pos b _ hb
  field_simp
  ring

/-- C4: both probability variants satisfy the probability-model contract
for every real input, given spread coefficient `c > 0` and base `b > 1`:
values strictly between 0 and 1, strict monotonicity, value `1/2` at 0,
and the symmetry `P (-x) = 1 - P x`. -/
theorem probability_model_contract (c b : ℝ) (hc : 0 < c) (hb : 1 < b) :
    (∀ x, p_normal c x ∈ Set.Ioo (0:ℝ) 1) ∧ StrictMono (p_normal c) ∧
      p_normal c 0 = 1 / 2 ∧ (∀ x, p_normal c (-x) = 1 - p_normal c x) ∧
      (∀ x, p_logistic b c x ∈ Set.Ioo (0:ℝ) 1) ∧
      StrictMono (p_logistic b c) ∧ p_logistic b c 0 = 1 / 2 ∧
      (∀ x, p_logistic b c (-x) = 1 - p_logistic b c x) :=
  ⟨p_normal_mem_Ioo c, p_normal_strictMono c hc, p_normal_zero c,
    p_normal_symm c, p_logistic_mem_Ioo b c hb,
    p_logistic_strictMono b c hb hc, p_logistic_zero b c,
    p_logistic_symm b c (by linarith)⟩

/-- Witness for C4 at the concrete coefficients `c = 1`, `b = 2`. -/
theorem probability_model_contract_witness :
    (0:ℝ) < 1 ∧ (1:ℝ) < 2 ∧
      ((∀ x, p_normal 1 x ∈ Set.Ioo (0:ℝ) 1) ∧ StrictMono (p_normal 1) ∧
        p_normal 1 0 = 1 / 2 ∧ (∀ x, p_normal 1 (-x) = 1 - p_normal 1 x) ∧
        (∀ x, p_logistic 2 1 x ∈ Set.Ioo (0:ℝ) 1) ∧
        StrictMono (p_logistic 2 1) ∧ p_logistic 2 1 0 = 1 / 2 ∧
        (∀ x, p_logistic 2 1 (-x) = 1 - p_logistic 2 1 x)) :=
  ⟨by norm_num, by norm_num,
    probability_model_contract 1 2 (by norm_num) (by norm_num)⟩

/-- Either variant of the probability model satisfies the pairwise
symmetry `P x + P (-x) = 1` that drives the expected-score normalization. -/
theorem p_symm_of_variant (P : ℝ → ℝ) (c b : ℝ) (hc : 0 < c) (hb : 1 < b)
    (hP : P = p_normal c ∨ P = p_logistic b c) :
    ∀ x, P x + P (-x) = 1 := by
  intro x
  rcases hP with h | h
  · rw [h, p_normal_symm]
    ring
  · rw [h, p_logistic_symm b c (by linarith)]
    ring

/-! ### Expected scores sum to one -/

theorem lookupKey_of_mem {β : Type} (l : List (String × β))
    (hnd : (l.map Prod.fst).Nodup) (k : String) (x : β)
    (hm : (k, x) ∈ l) : lookupKey k l = some x := by
  induction l with
  | nil => cases hm
  | cons q qs ih =>
    simp only [List.map_cons, List.nodup_cons] at hnd
    rcases List.mem_cons.mp hm with h | h
    · rw [← h, lookupKey, if_pos rfl]
    · have hne : q.1 ≠ k := by
        intro hEq
        apply hnd.1
        rw [hEq]
        simpa using List.mem_map_of_mem Prod.fst h
      rw [lookupKey, if_neg hne]
      exact ih hnd.2 h

theorem get_expected_eq (P : ℝ → ℝ) (player : String)
    (ratings : List (String × ℝ)) (rp : ℝ)
    (hlk : lookupKey player ratings = some rp)
    (hch : Nat.choose ratings.length 2 ≠ 0) :
    get_expected_score_multiplayer P player ratings =
      some (rowSum P player rp ratings /
        (Nat.choose ratings.length 2 : ℝ)) := by
  rw [get_expected_score_multiplayer, hlk]
  simp only [if_neg hch]
  rfl

theorem sum_map_addR {α : Type} (l : List α) (f g : α → ℝ) :
    (l.map (fun x => f x + g x)).sum = (l.map f).sum + (l.map g).sum := by
  induction l with
  | nil => simp
  | cons a t ih =>
    simp only [List.map_cons, List.sum_cons, ih]
    ring

theorem sum_map_divR {α : Type} (l : List α) (c : ℝ) (f : α → ℝ) :
    (l.map (fun x => f x / c)).sum = (l.map f).sum / c := by
  induction l with
  | nil => simp
  | cons a t ih =>
    simp only [List.map_cons, List.sum_cons, ih]
    rw [add_div]

theorem rowSum_cons_ne (P : ℝ → ℝ) (a : String × ℝ) (p : String) (rp : ℝ)
    (t : List (String × ℝ)) (hne : a.1 ≠ p) :
    rowSum P p rp (a :: t) = P (rp - a.2) + rowSum P p rp t := by
  have hcond : (a.1 != p) = true := bne_iff_ne.mpr hne
  rw [rowSum, rowSum, List.filter_cons, hcond]
  simp

theorem rowSum_cons_self (P : ℝ → ℝ) (a : String × ℝ)
    (t : List (String × ℝ)) (hnotin : a.1 ∉ t.map Prod.fst) :
    rowSum P a.1 a.2 (a :: t) =
      (t.map (fun q => P (a.2 - q.2))).sum := by
  have hcond : (a.1 != a.1) = false := by simp
  rw [rowSum, List.filter_cons, hcond]
  have hft : t.filter (fun q => q.1 != a.1) = t := by
    apply List.filter_eq_self.mpr
    intro q hq
    apply bne_iff_ne.mpr
    intro hEq
    apply hnotin
    rw [← hEq]
    simpa using List.mem_map_of_mem Prod.fst hq
  simp only [if_false, Bool.false_eq_true]
  rw [hft, List.map_map]
  rfl

theorem expected_double_sum (P : ℝ → ℝ) (hP : ∀ x, P x + P (-x) = 1) :
    ∀ (l : List (String × ℝ)), (l.map Prod.fst).Nodup →
      (l.map (fun e => rowSum P e.1 e.2 l)).sum =
        (Nat.choose l.length 2 : ℝ) := by
  intro l
  induction l with
  | nil => intro _; simp
  | cons a t ih =>
    intro hnd
    simp only [List.map_cons, List.nodup_cons] at hnd
    obtain ⟨hna, hndt⟩ := hnd
    rw [List.map_cons, List.sum_cons, rowSum_cons_self P a t hna]
    have hmap : t.map (fun e => rowSum P e.1 e.2 (a :: t)) =
        t.map (fun e => P (e.2 - a.2) + rowSum P e.1 e.2 t) := by
      apply List.map_congr_left
      intro e he
      apply rowSum_cons_ne
      intro hEq
      apply hna
      rw [hEq]
      simpa using List.mem_map_of_mem Prod.fst he
    rw [hmap, sum_map_addR, ih hndt]
    have hpair : (t.map (fun q => P (a.2 - q.2))).sum +
        (t.map (fun e => P (e.2 - a.2))).sum = (t.length : ℝ) := by
      rw [← sum_map_addR]
      have hone : t.map (fun q => P (a.2 - q.2) + P (q.2 - a.2)) =
          t.map (fun _ => (1:ℝ)) := by
        apply List.map_congr_left
        intro q _
        have h := hP (a.2 - q.2)
        rwa [neg_sub] at h
      rw [hone]
      simp [mul_comm]
    have hch : (Nat.choose (t.length + 1) 2 : ℝ) =
        (t.length : ℝ) + (Nat.choose t.length 2 : ℝ) := by
      rw [Nat.choose_succ_succ, Nat.choose_one_right]
      push_cast
      ring
    rw [List.length_cons, hch]
    linarith

/-- C3: for either probability variant and any ratings dict with at least
two (distinct) participants, the expected scores of all participants are
defined and sum to exactly 1. -/
theorem expected_scores_sum_one (P : ℝ → ℝ) (c b : ℝ) (hc : 0 < c)
    (hb : 1 < b) (hP : P = p_normal c ∨ P = p_logistic b c)
    (ratings : List (String × ℝ)) (hnd : (ratings.map Prod.fst).Nodup)
    (hn : 2 ≤ ratings.length) :
    (∀ q ∈ ratings, get_expected_score_multiplayer P q.1 ratings =
      some (rowSum P q.1 q.2 ratings /
        (Nat.choose ratings.length 2 : ℝ))) ∧
    (ratings.map (fun q =>
      (get_expected_score_multiplayer P q.1 ratings).getD 0)).sum = 1 := by
  have hch : Nat.choose ratings.length 2 ≠ 0 :=
    Nat.pos_iff_ne_zero.mp (Nat.choose_pos hn)
  have hsome : ∀ q ∈ ratings, get_expected_score_multiplayer P q.1 ratings =
      some (rowSum P q.1 q.2 ratings /
        (Nat.choose ratings.length 2 : ℝ)) := by
    intro q hq
    apply get_expected_eq P q.1 ratings q.2 ?_ hch
    apply lookupKey_of_mem ratings hnd q.1 q.2
    rw [Prod.mk.eta]
    exact hq
  refine ⟨hsome, ?_⟩
  have hmap : ratings.map (fun q =>
      (get_expected_score_multiplayer P q.1 ratings).getD 0) =
      ratings.map (fun q => rowSum P q.1 q.2 ratings /
        (Nat.choose ratings.length 2 : ℝ)) := by
    apply List.map_congr_left
    intro q hq
    rw [hsome q hq]
    rfl
  rw [hmap, sum_map_divR,
    expected_double_sum P (p_symm_of_variant P c b hc hb hP) ratings hnd]
  apply div_self
  exact Nat.cast_ne_zero.mpr hch

/-- Witness for C3 at the logistic model with `b = 2`, `c = 1` and the
ratings dict `{A: 0, B: 0}`. -/
theorem expected_scores_sum_one_witness :
    (0:ℝ) < 1 ∧ (1:ℝ) < 2 ∧
      (([("A", (0:ℝ)), ("B", 0)].map Prod.fst).Nodup) ∧
      2 ≤ ([("A", (0:ℝ)), ("B", 0)]).length ∧
      ((∀ q ∈ [("A", (0:ℝ)), ("B", 0)],
        get_expected_score_multiplayer (p_logistic 2 1) q.1
            [("A", (0:ℝ)), ("B", 0)] =
          some (rowSum (p_logistic 2 1) q.1 q.2 [("A", (0:ℝ)), ("B", 0)] /
            (Nat.choose ([("A", (0:ℝ)), ("B", 0)]).length 2 : ℝ))) ∧
      ([("A", (0:ℝ)), ("B", 0)].map (fun q =>
        (get_expected_score_multiplayer (p_logistic 2 1) q.1
          [("A", (0:ℝ)), ("B", 0)]).getD 0)).sum = 1) :=
  ⟨by norm_num, by norm_num, by simp, by simp,
    expected_scores_sum_one (p_logistic 2 1) 1 2 (by norm_num) (by norm_num)
      (Or.inr rfl) [("A", (0:ℝ)), ("B", 0)] (by simp) (by simp)⟩

/-! ### Shape of the rating changes and of the fold step -/

theorem optionMapList_eq_map {α β : Type} (f : α → Option β) (g : α → β) :
    ∀ l : List α, (∀ a ∈ l, f a = some (g a)) →
      optionMapList f l = some (l.map g) := by
  intro l
  induction l with
  | nil => intro _; rfl
  | cons a t ih =>
    intro h
    rw [optionMapList, h a (List.mem_cons_self a t),
      ih (fun x hx => h x (List.mem_cons_of_mem a hx))]
    rfl

theorem lookupKey_map_self {β : Type} (players : List String)
    (f : String → β) (p : String) (hp : p ∈ players) :
    lookupKey p (players.map (fun q => (q, f q))) = some (f p) := by
  induction players with
  | nil => cases hp
  | cons a t ih =>
    rw [List.map_cons, lookupKey]
    by_cases h : a = p
    · rw [if_pos h, h]
    · rw [if_neg h]
      exact ih (List.mem_of_ne_of_mem (fun hh => h hh.symm) hp)

theorem lookupKey_map_value {β γ : Type} (l : List (String × β)) (g : β → γ)
    (k : String) :
    lookupKey k (l.map (fun e => (e.1, g e.2))) = (lookupKey k l).map g := by
  induction l with
  | nil => rfl
  | cons a t ih =>
    rw [List.map_cons, lookupKey, lookupKey]
    by_cases h : a.1 = k
    · rw [if_pos h, if_pos h]
      rfl
    · rw [if_neg h, if_neg h, ih]

theorem map_fst_map_pair {β : Type} (players : List String)
    (f : String → β) :
    (players.map (fun q => (q, f q))).map Prod.fst = players := by
  rw [List.map_map]
  exact List.map_id players

/-- Success and shape of `get_rating_changes_multiplayer` on a trial with
at least 2 distinct participants: the actual scores succeed and the
resulting change of each player `p` is
`(n - 1) * (K * (actual(p) - rowSum(p) / C(n, 2)))`. -/
theorem get_rating_changes_eq (P : ℝ → ℝ) (ratings : String → ℝ)
    (ranks : List (String × Int)) (K : ℝ)
    (hnd : (ranks.map Prod.fst).Nodup) (hn : 2 ≤ ranks.length) :
    ∃ actual_scores,
      get_actual_scores_multiplayer ranks = some actual_scores ∧
      get_rating_changes_multiplayer P ratings ranks K =
        some ((ranks.map Prod.fst).map (fun p =>
          (p, ((ranks.length : ℝ) - 1) * (K *
            ((((lookupKey p actual_scores).getD 0 : ℚ) : ℝ) -
              rowSum P p (ratings p)
                  ((ranks.map Prod.fst).map (fun q => (q, ratings q))) /
                (Nat.choose ranks.length 2 : ℝ)))))) := by
  have hlp : (ranks.map Prod.fst).length = ranks.length :=
    List.length_map ranks Prod.fst
  have hlir : ((ranks.map Prod.fst).map
      (fun q => (q, ratings q))).length = ranks.length := by
    rw [List.length_map, hlp]
  have hch : Nat.choose ((ranks.map Prod.fst).map
      (fun q => (q, ratings q))).length 2 ≠ 0 := by
    rw [hlir]
    exact Nat.pos_iff_ne_zero.mp (Nat.choose_pos hn)
  refine ⟨_, get_actual_scores_eq ranks hn, ?_⟩
  rw [get_rating_changes_multiplayer]
  rw [optionMapList_eq_map _ (fun p =>
    (p, rowSum P p (ratings p)
        ((ranks.map Prod.fst).map (fun q => (q, ratings q))) /
      (Nat.choose ((ranks.map Prod.fst).map
        (fun q => (q, ratings q))).length 2 : ℝ))) _ ?hexp]
  case hexp =>
    intro p hp
    rw [get_expected_eq P p _ (ratings p)
      (lookupKey_map_self (ranks.map Prod.fst) ratings p hp) hch]
    rfl
  rw [get_actual_scores_eq ranks hn]
  simp only [Option.some.injEq]
  apply List.map_congr_left
  intro p hp
  rw [lookupKey_map_self _ _ p hp]
  simp only [Option.getD_some]
  rw [lookupKey_map_self _ _ p hp]
  simp only [Option.getD_some]
  rw [hlp, hlir]

theorem foldl_update_not_mem (l : List (String × ℝ)) :
    ∀ (r : String → ℝ) (s : String), s ∉ l.map Prod.fst →
      (l.foldl (fun r oc => fun t => if t = oc.1 then r t + oc.2 else r t)
        r) s = r s := by
  induction l with
  | nil => intro r s _; rfl
  | cons a t ih =>
    intro r s hs
    simp only [List.map_cons, List.mem_cons] at hs
    push_neg at hs
    rw [List.foldl_cons, ih _ s hs.2]
    rw [if_neg hs.1]

theorem foldl_update_lookup (l : List (String × ℝ)) :
    ∀ (r : String → ℝ) (s : String) (c : ℝ), (l.map Prod.fst).Nodup →
      lookupKey s l = some c →
      (l.foldl (fun r oc => fun t => if t = oc.1 then r t + oc.2 else r t)
        r) s = r s + c := by
  induction l with
  | nil => intro r s c _ hlk; cases hlk
  | cons a t ih =>
    intro r s c hnd hlk
    simp only [List.map_cons, List.nodup_cons] at hnd
    rw [List.foldl_cons]
    by_cases h : a.1 = s
    · rw [lookupKey, if_pos h] at hlk
      have hc : c = a.2 := (Option.some_injective _ hlk).symm
      have hs : s ∉ t.map Prod.fst := h ▸ hnd.1
      rw [foldl_update_not_mem t _ s hs, if_pos h.symm, hc]
    · rw [lookupKey, if_neg h] at hlk
      rw [ih _ s c hnd.2 hlk, if_neg (fun hh => h hh.symm)]

theorem lookupKey_none_of_not_mem {β : Type} (l : List (String × β))
    (s : String) (h : s ∉ l.map Prod.fst) : lookupKey s l = none := by
  induction l with
  | nil => rfl
  | cons a t ih =>
    simp only [List.map_cons, List.mem_cons] at h
    push_neg at h
    rw [lookupKey, if_neg (fun hh => h.1 hh.symm), ih h.2]

theorem foldl_update_apply (l : List (String × ℝ)) (r : String → ℝ)
    (s : String) (hnd : (l.map Prod.fst).Nodup) :
    (l.foldl (fun r oc => fun t => if t = oc.1 then r t + oc.2 else r t)
      r) s = r s + ((lookupKey s l).getD 0) := by
  cases hl : lookupKey s l with
  | none =>
    have hs : s ∉ l.map Prod.fst := by
      intro hmem
      obtain ⟨e, he, hfst⟩ := List.mem_map.mp hmem
      have : (s, e.2) ∈ l := by
        rw [← hfst, Prod.mk.eta]
        exact he
      rw [lookupKey_of_mem l hnd s e.2 this] at hl
      cases hl
    rw [foldl_update_not_mem l r s hs]
    simp
  | some c =>
    rw [foldl_update_lookup l r s c hnd hl]
    rfl

/-- C1: for every trial with at least 2 (distinct) participants, the
change applied to a participant's rating by the fold is
`weight_function(weight, raw) * raw`, where
`raw = (n - 1) * K * (actual - expected)` is the unweighted rating
change; the default `weight_function` returns its weight argument
unchanged for every input pair, so the applied change is `weight * raw`. -/
theorem applied_change_formula (P : ℝ → ℝ) (ratings : String → ℝ)
    (ranks : List (String × Int)) (K w : ℝ) (p : String)
    (hnd : (ranks.map Prod.fst).Nodup) (hn : 2 ≤ ranks.length)
    (hp : p ∈ ranks.map Prod.fst) :
    (∀ a b : ℝ, weight_function a b = a) ∧
    ∃ chs asc f raw,
      get_actual_scores_multiplayer ranks = some asc ∧
      get_rating_changes_multiplayer P ratings ranks K = some chs ∧
      lookupKey p chs = some raw ∧
      raw = ((ranks.length : ℝ) - 1) * (K *
        ((((lookupKey p asc).getD 0 : ℚ) : ℝ) -
          (get_expected_score_multiplayer P p
            ((ranks.map Prod.fst).map (fun q => (q, ratings q)))).getD 0)) ∧
      processTrial P K ratings ranks w = some f ∧
      f p = ratings p + weight_function w raw * raw ∧
      weight_function w raw * raw = w * raw := by
  obtain ⟨asc, hasc, hchs⟩ := get_rating_changes_eq P ratings ranks K hnd hn
  have hch : Nat.choose ((ranks.map Prod.fst).map
      (fun q => (q, ratings q))).length 2 ≠ 0 := by
    rw [List.length_map, List.length_map]
    exact Nat.pos_iff_ne_zero.mp (Nat.choose_pos hn)
  have hexp : (get_expected_score_multiplayer P p
      ((ranks.map Prod.fst).map (fun q => (q, ratings q)))).getD 0 =
      rowSum P p (ratings p)
          ((ranks.map Prod.fst).map (fun q => (q, ratings q))) /
        (Nat.choose ranks.length 2 : ℝ) := by
    rw [get_expected_eq P p _ (ratings p)
      (lookupKey_map_self (ranks.map Prod.fst) ratings p hp) hch]
    rw [List.length_map, List.length_map]
    rfl
  set irs := (ranks.map Prod.fst).map (fun q => (q, ratings q)) with hirs
  set val := fun p : String => ((ranks.length : ℝ) - 1) * (K *
    ((((lookupKey p asc).getD 0 : ℚ) : ℝ) -
      rowSum P p (ratings p) irs / (Nat.choose ranks.length 2 : ℝ)))
    with hval
  have hlk : lookupKey p ((ranks.map Prod.fst).map
      (fun q => (q, val q))) = some (val p) :=
    lookupKey_map_self (ranks.map Prod.fst) val p hp
  have hndchs : ((((ranks.map Prod.fst)).map
      (fun q => (q, val q))).map Prod.fst).Nodup := by
    rw [map_fst_map_pair]
    exact hnd
  refine ⟨fun _ _ => rfl, (ranks.map Prod.fst).map (fun q => (q, val q)),
    asc, ?_, val p, hasc, hchs, hlk, ?_, ?_, ?_, rfl⟩
  · exact ((((ranks.map Prod.fst)).map (fun q => (q, val q))).map
      (fun oc => (oc.1, weight_function w oc.2 * oc.2))).foldl
      (fun r oc => fun t => if t = oc.1 then r t + oc.2 else r t)
      ratings
  · rw [hval, hexp]
  · simp only [processTrial, hchs]
  · have hndw : (((((ranks.map Prod.fst)).map (fun q => (q, val q))).map
        (fun oc => (oc.1, weight_function w oc.2 * oc.2))).map
          Prod.fst).Nodup := by
      rw [List.map_map]
      rw [show (Prod.fst ∘ fun oc : String × ℝ =>
        (oc.1, weight_function w oc.2 * oc.2)) = Prod.fst from rfl]
      exact hndchs
    have hlkw := lookupKey_map_value
      ((ranks.map Prod.fst).map (fun q => (q, val q)))
      (fun x => weight_function w x * x) p
    rw [hlk] at hlkw
    exact foldl_update_lookup _ ratings p _ hndw hlkw

/-- Witness for C1 at the trial `{A: 1, B: 2}` with zero ratings, the
default logistic model, `K = 32` and weight 1. -/
theorem applied_change_formula_witness :
    ((([("A", 1), ("B", 2)] : List (String × Int)).map Prod.fst).Nodup) ∧
    2 ≤ ([("A", 1), ("B", 2)] : List (String × Int)).length ∧
    "A" ∈ ([("A", 1), ("B", 2)] : List (String × Int)).map Prod.fst ∧
    ((∀ a b : ℝ, weight_function a b = a) ∧
     ∃ chs asc f raw,
       get_actual_scores_multiplayer [("A", 1), ("B", 2)] = some asc ∧
       get_rating_changes_multiplayer p_function (fun _ => 0)
         [("A", 1), ("B", 2)] 32 = some chs ∧
       lookupKey "A" chs = some raw ∧
       raw = ((([("A", 1), ("B", 2)] : List (String × Int)).length : ℝ) - 1) *
         (32 * ((((lookupKey "A" asc).getD 0 : ℚ) : ℝ) -
           (get_expected_score_multiplayer p_function "A"
             ((([("A", 1), ("B", 2)] : List (String × Int)).map
               Prod.fst).map (fun q => (q, (0:ℝ))))).getD 0)) ∧
       processTrial p_function 32 (fun _ => 0) [("A", 1), ("B", 2)] 1 =
         some f ∧
       f "A" = (0:ℝ) + weight_function 1 raw * raw ∧
       weight_function 1 raw * raw = 1 * raw) :=
  ⟨by decide, by decide, by decide,
    applied_change_formula p_function (fun _ => 0) [("A", 1), ("B", 2)]
      32 1 "A" (by decide) (by decide) (by decide)⟩

/-! ### The rating changes of a trial sum to zero -/

theorem sum_map_mulR {α : Type} (l : List α) (c : ℝ) (f : α → ℝ) :
    (l.map (fun x => c * f x)).sum = c * (l.map f).sum := by
  induction l with
  | nil => simp
  | cons a t ih =>
    simp only [List.map_cons, List.sum_cons, ih]
    ring

theorem sum_map_subR {α : Type} (l : List α) (f g : α → ℝ) :
    (l.map (fun x => f x - g x)).sum = (l.map f).sum - (l.map g).sum := by
  induction l with
  | nil => simp
  | cons a t ih =>
    simp only [List.map_cons, List.sum_cons, ih]
    ring

theorem sum_map_castR {α : Type} (l : List α) (f : α → ℚ) :
    (l.map (fun x => ((f x : ℚ) : ℝ))).sum = (((l.map f).sum : ℚ) : ℝ) := by
  induction l with
  | nil => simp
  | cons a t ih =>
    simp only [List.map_cons, List.sum_cons, ih]
    push_cast
    ring

theorem normalized_scores_sum_one (ranks : List (String × Int))
    (hn : 2 ≤ ranks.length) :
    ((scoresTied ranks).map
      (fun i => i / (scoresTied ranks).sum)).sum = 1 := by
  rw [sum_map_div, div_self (ne_of_gt (sum_scoresTied_pos ranks hn))]

theorem sum_lookup_zip_keys (keys : List String) :
    ∀ (vals : List ℚ), keys.Nodup → keys.length = vals.length →
      (keys.map (fun p => (lookupKey p (keys.zip vals)).getD 0)).sum =
        vals.sum := by
  induction keys with
  | nil =>
    intro vals _ hlen
    cases vals with
    | nil => simp
    | cons v vt => simp at hlen
  | cons k0 kt ih =>
    intro vals hnd hlen
    cases vals with
    | nil => simp at hlen
    | cons v0 vt =>
      simp only [List.nodup_cons] at hnd
      rw [List.zip_cons_cons, List.map_cons, List.sum_cons, List.sum_cons]
      have hhead : (lookupKey k0 ((k0, v0) :: kt.zip vt)).getD 0 = v0 := by
        rw [lookupKey, if_pos rfl]
        rfl
      have htail : kt.map
          (fun p => (lookupKey p ((k0, v0) :: kt.zip vt)).getD 0) =
          kt.map (fun p => (lookupKey p (kt.zip vt)).getD 0) := by
        apply List.map_congr_left
        intro p hp
        have hne : k0 ≠ p := fun h => hnd.1 (h ▸ hp)
        rw [lookupKey, if_neg hne]
      rw [hhead, htail, ih vt hnd.2 (by simpa using hlen)]

/-- C10: for every trial with at least 2 (distinct) participants, any
symmetric probability model, and any ratings, the per-participant rating
changes sum to exactly 0 (actual and expected scores each sum to 1); and
since every participant is scaled by the same trial weight, processing the
trial leaves the sum of ratings over any key set containing the
participants unchanged. -/
theorem rating_changes_sum_zero (P : ℝ → ℝ) (ratings : String → ℝ)
    (ranks : List (String × Int)) (K : ℝ)
    (hP : ∀ x, P x + P (-x) = 1)
    (hnd : (ranks.map Prod.fst).Nodup) (hn : 2 ≤ ranks.length) :
    ∃ chs, get_rating_changes_multiplayer P ratings ranks K = some chs ∧
      (chs.map Prod.snd).sum = 0 ∧
      ∀ (w : ℝ) (f : String → ℝ) (S : Finset String),
        processTrial P K ratings ranks w = some f →
        (∀ q ∈ ranks.map Prod.fst, q ∈ S) →
        (∑ s ∈ S, f s) = ∑ s ∈ S, ratings s := by
  obtain ⟨asc, hasc, hchs⟩ := get_rating_changes_eq P ratings ranks K hnd hn
  have hascEq : asc = ((orderedRanks ranks).map Prod.fst).zip
      ((scoresTied ranks).map (fun i => i / (scoresTied ranks).sum)) := by
    have h2 := get_actual_scores_eq ranks hn
    rw [hasc] at h2
    exact Option.some_injective _ h2
  have hndIr : ((((ranks.map Prod.fst)).map
      (fun q => (q, ratings q))).map Prod.fst).Nodup := by
    rw [map_fst_map_pair]
    exact hnd
  have hchN : (Nat.choose ranks.length 2 : ℝ) ≠ 0 :=
    Nat.cast_ne_zero.mpr (Nat.pos_iff_ne_zero.mp (Nat.choose_pos hn))
  -- sum of the actual scores over the players is 1
  have hsumA : ((ranks.map Prod.fst).map
      (fun p => (((lookupKey p asc).getD 0 : ℚ) : ℝ))).sum = 1 := by
    rw [sum_map_castR]
    have hperm : (ranks.map Prod.fst).Perm
        ((orderedRanks ranks).map Prod.fst) :=
      ((perm_orderedRanks ranks).map Prod.fst).symm
    have hkeysnd : (((orderedRanks ranks)).map Prod.fst).Nodup :=
      (hperm.nodup_iff).mp hnd
    have hlen : (((orderedRanks ranks)).map Prod.fst).length =
        ((scoresTied ranks).map
          (fun i => i / (scoresTied ranks).sum)).length := by
      rw [List.length_map, List.length_map, length_orderedRanks,
        length_scoresTied]
    have heq := (hperm.map
      (fun p => (lookupKey p asc).getD 0)).sum_eq
    rw [heq, hascEq, sum_lookup_zip_keys _ _ hkeysnd hlen,
      normalized_scores_sum_one ranks hn]
    norm_num
  -- sum of the expected scores over the players is 1
  have hsumE : ((ranks.map Prod.fst).map
      (fun p => rowSum P p (ratings p)
          ((ranks.map Prod.fst).map (fun q => (q, ratings q))) /
        (Nat.choose ranks.length 2 : ℝ))).sum = 1 := by
    rw [sum_map_divR]
    have hmm : (ranks.map Prod.fst).map (fun p => rowSum P p (ratings p)
        ((ranks.map Prod.fst).map (fun q => (q, ratings q)))) =
        (((ranks.map Prod.fst)).map (fun q => (q, ratings q))).map
          (fun e => rowSum P e.1 e.2
            ((ranks.map Prod.fst).map (fun q => (q, ratings q)))) := by
      conv_rhs => rw [List.map_map]
      rfl
    rw [hmm, expected_double_sum P hP _ hndIr]
    rw [List.length_map, List.length_map]
    exact div_self hchN
  -- the changes sum to zero
  have hsum0 : (((ranks.map Prod.fst).map (fun p =>
      (p, ((ranks.length : ℝ) - 1) * (K *
        ((((lookupKey p asc).getD 0 : ℚ) : ℝ) -
          rowSum P p (ratings p)
              ((ranks.map Prod.fst).map (fun q => (q, ratings q))) /
            (Nat.choose ranks.length 2 : ℝ)))))).map Prod.snd).sum = 0 := by
    rw [List.map_map]
    have hcomp : (Prod.snd ∘ fun p : String =>
        (p, ((ranks.length : ℝ) - 1) * (K *
          ((((lookupKey p asc).getD 0 : ℚ) : ℝ) -
            rowSum P p (ratings p)
                ((ranks.map Prod.fst).map (fun q => (q, ratings q))) /
              (Nat.choose ranks.length 2 : ℝ))))) =
        (fun p => ((ranks.length : ℝ) - 1) * (K *
          ((((lookupKey p asc).getD 0 : ℚ) : ℝ) -
            rowSum P p (ratings p)
                ((ranks.map Prod.fst).map (fun q => (q, ratings q))) /
              (Nat.choose ranks.length 2 : ℝ)))) := rfl
    rw [hcomp, sum_map_mulR, sum_map_mulR, sum_map_subR, hsumA, hsumE]
    ring
  refine ⟨_, hchs, hsum0, ?_⟩
  intro w f S hproc hsub
  simp only [processTrial, hchs] at hproc
  have hf := Option.some_injective _ hproc
  -- the weighted changes and their keys
  have hndw : ((((ranks.map Prod.fst).map (fun p =>
      (p, ((ranks.length : ℝ) - 1) * (K *
        ((((lookupKey p asc).getD 0 : ℚ) : ℝ) -
          rowSum P p (ratings p)
              ((ranks.map Prod.fst).map (fun q => (q, ratings q))) /
            (Nat.choose ranks.length 2 : ℝ)))))).map
        (fun oc => (oc.1, weight_function w oc.2 * oc.2))).map
          Prod.fst).Nodup := by
    rw [List.map_map]
    rw [show (Prod.fst ∘ fun oc : String × ℝ =>
      (oc.1, weight_function w oc.2 * oc.2)) = Prod.fst from rfl]
    rw [map_fst_map_pair]
    exact hnd
  have happly : ∀ s, f s = ratings s +
      ((lookupKey s ((((ranks.map Prod.fst)).map (fun p =>
        (p, ((ranks.length : ℝ) - 1) * (K *
          ((((lookupKey p asc).getD 0 : ℚ) : ℝ) -
            rowSum P p (ratings p)
                ((ranks.map Prod.fst).map (fun q => (q, ratings q))) /
              (Nat.choose ranks.length 2 : ℝ)))))).map
          (fun oc => (oc.1, weight_function w oc.2 * oc.2)))).getD 0) := by
    intro s
    rw [← hf]
    exact foldl_update_apply _ ratings s hndw
  rw [Finset.sum_congr rfl (fun s _ => happly s), Finset.sum_add_distrib]
  have hzero : (∑ s ∈ S,
      ((lookupKey s ((((ranks.map Prod.fst)).map (fun p =>
        (p, ((ranks.length : ℝ) - 1) * (K *
          ((((lookupKey p asc).getD 0 : ℚ) : ℝ) -
            rowSum P p (ratings p)
                ((ranks.map Prod.fst).map (fun q => (q, ratings q))) /
              (Nat.choose ranks.length 2 : ℝ)))))).map
          (fun oc => (oc.1, weight_function w oc.2 * oc.2)))).getD 0)) =
      0 := by
    set wlist := (((ranks.map Prod.fst)).map (fun p =>
      (p, ((ranks.length : ℝ) - 1) * (K *
        ((((lookupKey p asc).getD 0 : ℚ) : ℝ) -
          rowSum P p (ratings p)
              ((ranks.map Prod.fst).map (fun q => (q, ratings q))) /
            (Nat.choose ranks.length 2 : ℝ)))))).map
        (fun oc => (oc.1, weight_function w oc.2 * oc.2)) with hwlist
    have hkeysW : wlist.map Prod.fst = ranks.map Prod.fst := by
      rw [hwlist, List.map_map]
      rw [show (Prod.fst ∘ fun oc : String × ℝ =>
        (oc.1, weight_function w oc.2 * oc.2)) = Prod.fst from rfl]
      rw [map_fst_map_pair]
    have hndW2 : (wlist.map Prod.fst).Nodup := by rw [hkeysW]; exact hnd
    have hsubW : (wlist.map Prod.fst).toFinset ⊆ S := by
      intro s hs
      rw [hkeysW] at hs
      exact hsub s (List.mem_toFinset.mp hs)
    rw [← Finset.sum_subset hsubW (fun s _ hs => ?hout)]
    case hout =>
      have hnm : s ∉ wlist.map Prod.fst := fun hmem =>
        hs (List.mem_toFinset.mpr hmem)
      rw [lookupKey_none_of_not_mem wlist s hnm]
      rfl
    rw [List.sum_toFinset _ hndW2]
    have hvals : (wlist.map Prod.fst).map
        (fun s => (lookupKey s wlist).getD 0) = wlist.map Prod.snd := by
      rw [List.map_map]
      apply List.map_congr_left
      intro e he
      have hlk : lookupKey e.1 wlist = some e.2 := by
        apply lookupKey_of_mem wlist hndW2 e.1 e.2
        rw [Prod.mk.eta]
        exact he
      simp only [Function.comp_apply, hlk]
      rfl
    rw [hvals, hwlist, List.map_map]
    have hcomp2 : (Prod.snd ∘ fun oc : String × ℝ =>
        (oc.1, weight_function w oc.2 * oc.2)) =
        (fun oc : String × ℝ => w * oc.2) := rfl
    rw [hcomp2]
    have hms : ((ranks.map Prod.fst).map (fun p =>
        (p, ((ranks.length : ℝ) - 1) * (K *
          ((((lookupKey p asc).getD 0 : ℚ) : ℝ) -
            rowSum P p (ratings p)
                ((ranks.map Prod.fst).map (fun q => (q, ratings q))) /
              (Nat.choose ranks.length 2 : ℝ)))))).map
          (fun oc : String × ℝ => w * oc.2) =
        ((ranks.map Prod.fst).map (fun p =>
          (p, ((ranks.length : ℝ) - 1) * (K *
            ((((lookupKey p asc).getD 0 : ℚ) : ℝ) -
              rowSum P p (ratings p)
                  ((ranks.map Prod.fst).map (fun q => (q, ratings q))) /
                (Nat.choose ranks.length 2 : ℝ)))))).map
            (fun oc : String × ℝ => w * Prod.snd oc) := rfl
    rw [hms]
    have hfinal := sum_map_mulR (((ranks.map Prod.fst)).map (fun p =>
      (p, ((ranks.length : ℝ) - 1) * (K *
        ((((lookupKey p asc).getD 0 : ℚ) : ℝ) -
          rowSum P p (ratings p)
              ((ranks.map Prod.fst).map (fun q => (q, ratings q))) /
            (Nat.choose ranks.length 2 : ℝ)))))) w Prod.snd
    rw [hfinal, hsum0, mul_zero]
  rw [hzero, add_zero]

/-- Witness for C10 at the constant-half probability model, zero ratings,
and the trial `{A: 1, B: 2}` with `K = 32`. -/
theorem rating_changes_sum_zero_witness :
    (∀ x : ℝ, (fun _ : ℝ => (1:ℝ)/2) x + (fun _ : ℝ => (1:ℝ)/2) (-x) = 1) ∧
    ((([("A", 1), ("B", 2)] : List (String × Int)).map Prod.fst).Nodup) ∧
    2 ≤ ([("A", 1), ("B", 2)] : List (String × Int)).length ∧
    (∃ chs, get_rating_changes_multiplayer (fun _ : ℝ => (1:ℝ)/2)
        (fun _ => 0) [("A", 1), ("B", 2)] 32 = some chs ∧
      (chs.map Prod.snd).sum = 0 ∧
      ∀ (w : ℝ) (f : String → ℝ) (S : Finset String),
        processTrial (fun _ : ℝ => (1:ℝ)/2) 32 (fun _ => 0)
          [("A", 1), ("B", 2)] w = some f →
        (∀ q ∈ ([("A", 1), ("B", 2)] : List (String × Int)).map Prod.fst,
          q ∈ S) →
        (∑ s ∈ S, f s) = ∑ s ∈ S, (fun _ : String => (0:ℝ)) s) :=
  ⟨fun _ => by norm_num, by decide, by decide,
    rating_changes_sum_zero (fun _ : ℝ => (1:ℝ)/2) (fun _ => 0)
      [("A", 1), ("B", 2)] 32 (fun _ => by norm_num) (by decide) (by decide)⟩

/-! ### Two-player trials -/

theorem actual_scores_pair (A B : String) (ra rb : Int) (hlt : ra < rb) :
    get_actual_scores_multiplayer [(A, ra), (B, rb)] =
      some [(A, 1), (B, 0)] := by
  have hne : (ra == rb) = false := by simp [hlt.ne]
  norm_num [get_actual_scores_multiplayer, scoresTied, scoresRaw, tieIvs,
    tiesVec, rankVec, orderedRanks, tiesScan, tieRunEnd, applyInterval,
    List.insertionSort, List.orderedInsert, rankLE, hlt.le, hne,
    List.range_succ, List.zip_cons_cons]

theorem p_function_zero : p_function 0 = 1 / 2 :=
  p_logistic_zero log_base std_dev_coefficient

theorem processTrial_zero_pair (w : ℝ) :
    ∃ f, processTrial p_function game_points_coefficient
        (fun _ : String => (0:ℝ)) [("A", 1), ("B", 2)] w = some f ∧
      f "A" = w * 16 ∧ f "B" = w * (-16) := by
  obtain ⟨asc, hasc, hchs⟩ := get_rating_changes_eq p_function
    (fun _ => 0) [("A", 1), ("B", 2)] game_points_coefficient
    (by decide) (by decide)
  have hascP := actual_scores_pair "A" "B" 1 2 (by norm_num)
  rw [hasc] at hascP
  have hascEq : asc = [("A", (1:ℚ)), ("B", 0)] :=
    Option.some_injective _ hascP
  subst hascEq
  have hAB : ("A" : String) ≠ "B" := by decide
  have hBA : ("B" : String) ≠ "A" := by decide
  have hbAB : (("A" : String) != "B") = true := by decide
  have hbBA : (("B" : String) != "A") = true := by decide
  refine ⟨fun s => if s = "B" then w * (-16) else
    if s = "A" then w * 16 else 0, ?_, by simp [hAB], by simp⟩
  simp only [processTrial, hchs]
  congr 1
  funext s
  simp only [List.map_cons, List.map_nil, List.length_cons,
    List.length_nil, List.foldl_cons, List.foldl_nil]
  by_cases hsB : s = "B"
  · subst hsB
    norm_num [weight_function, rowSum, lookupKey, p_function_zero,
      Nat.choose, game_points_coefficient, List.filter, hAB, hBA,
      hbAB, hbBA]
  · by_cases hsA : s = "A"
    · subst hsA
      norm_num [weight_function, rowSum, lookupKey, p_function_zero,
        Nat.choose, game_points_coefficient, List.filter, hAB, hBA,
        hbAB, hbBA]
    · simp [hsA, hsB]

/-- C5: a 2-participant trial reduces to the classical pairwise Elo
formula: with ratings `(r, 0)` and the first participant ranked better,
the winner's rating change is exactly `K * (1 - P r)`; in particular with
zero ratings, ranks `{A: 1, B: 2}`, weight 1 and `K = 32` under the
default logistic model, the new ratings are `{A: 16, B: -16}`. -/
theorem two_player_classical_elo :
    (∀ (P : ℝ → ℝ) (K r : ℝ) (rkA rkB : Int), rkA < rkB →
      ∃ chs, get_rating_changes_multiplayer P
          (fun s => if s = "A" then r else 0) [("A", rkA), ("B", rkB)] K =
          some chs ∧
        lookupKey "A" chs = some (K * (1 - P r))) ∧
    (∃ f, processTrial p_function game_points_coefficient
        (fun _ : String => (0:ℝ)) [("A", 1), ("B", 2)] 1 = some f ∧
      f "A" = 16 ∧ f "B" = -16) := by
  constructor
  · intro P K r rkA rkB hlt
    obtain ⟨asc, hasc, hchs⟩ := get_rating_changes_eq P
      (fun s => if s = "A" then r else 0) [("A", rkA), ("B", rkB)] K
      (by simp) (by simp)
    have hascP := actual_scores_pair "A" "B" rkA rkB hlt
    rw [hasc] at hascP
    have hascEq : asc = [("A", (1:ℚ)), ("B", 0)] :=
      Option.some_injective _ hascP
    subst hascEq
    refine ⟨_, hchs, ?_⟩
    rw [lookupKey_map_self _ _ "A" (by simp)]
    congr 1
    have hbAB : (("A" : String) != "B") = true := by decide
    have hbBA : (("B" : String) != "A") = true := by decide
    have hBA : ("B" : String) ≠ "A" := by decide
    norm_num [rowSum, lookupKey, List.filter, hbAB, hbBA, hBA, Nat.choose]
  · obtain ⟨f, hf, hA, hB⟩ := processTrial_zero_pair 1
    refine ⟨f, hf, ?_, ?_⟩
    · rw [hA]; norm_num
    · rw [hB]; norm_num

/-- Witness for C5's general part at the constant-half probability model,
both ratings 0 and ranks 0 < 1, `K = 32`. -/
theorem two_player_classical_elo_witness :
    (0 : Int) < 1 ∧
    ∃ chs, get_rating_changes_multiplayer (fun _ : ℝ => (1:ℝ)/2)
        (fun s => if s = "A" then (0:ℝ) else 0) [("A", 0), ("B", 1)] 32 =
        some chs ∧
      lookupKey "A" chs = some (32 * (1 - (1:ℝ)/2)) :=
  ⟨by decide, two_player_classical_elo.1 (fun _ : ℝ => (1:ℝ)/2) 32 0 0 1
    (by decide)⟩

/-! ### No weight validation; sub-2-participant trials -/

/-- Counterexample to C8 as stated: a trial whose weight is the negative
number -1 is processed without any failure and the negative weight is
multiplied straight into the deltas (new ratings `{A: -16, B: 16}`). -/
theorem negative_weight_processed_counterexample :
    (-1 : ℝ) < 0 ∧
    ∃ f, processTrial p_function game_points_coefficient
        (fun _ : String => (0:ℝ)) [("A", 1), ("B", 2)] (-1) = some f ∧
      f "A" = -16 ∧ f "B" = 16 := by
  refine ⟨by norm_num, ?_⟩
  obtain ⟨f, hf, hA, hB⟩ := processTrial_zero_pair (-1)
  refine ⟨f, hf, ?_, ?_⟩
  · rw [hA]; norm_num
  · rw [hB]; norm_num

/-- C8 amended: the fold performs no weight validation whatsoever: for
every negative weight, a well-formed trial is processed successfully and
the weight, passed through `weight_function` unchanged, multiplies each
participant's raw rating change. -/
theorem negative_weight_applied (P : ℝ → ℝ) (ratings : String → ℝ)
    (ranks : List (String × Int)) (K w : ℝ) (p : String)
    (hw : w < 0) (hnd : (ranks.map Prod.fst).Nodup)
    (hn : 2 ≤ ranks.length) (hp : p ∈ ranks.map Prod.fst) :
    ∃ chs f raw,
      get_rating_changes_multiplayer P ratings ranks K = some chs ∧
      lookupKey p chs = some raw ∧
      processTrial P K ratings ranks w = some f ∧
      f p = ratings p + w * raw := by
  obtain ⟨asc, hasc, hchs⟩ := get_rating_changes_eq P ratings ranks K hnd hn
  set val := fun p : String => ((ranks.length : ℝ) - 1) * (K *
    ((((lookupKey p asc).getD 0 : ℚ) : ℝ) -
      rowSum P p (ratings p)
          ((ranks.map Prod.fst).map (fun q => (q, ratings q))) /
        (Nat.choose ranks.length 2 : ℝ))) with hval
  have hlk : lookupKey p ((ranks.map Prod.fst).map
      (fun q => (q, val q))) = some (val p) :=
    lookupKey_map_self (ranks.map Prod.fst) val p hp
  have hndchs : ((((ranks.map Prod.fst)).map
      (fun q => (q, val q))).map Prod.fst).Nodup := by
    rw [map_fst_map_pair]
    exact hnd
  refine ⟨(ranks.map Prod.fst).map (fun q => (q, val q)),
    ((((ranks.map Prod.fst)).map (fun q => (q, val q))).map
      (fun oc => (oc.1, weight_function w oc.2 * oc.2))).foldl
      (fun r oc => fun t => if t = oc.1 then r t + oc.2 else r t)
      ratings, val p, hchs, hlk, ?_, ?_⟩
  · simp only [processTrial, hchs]
  · have hndw : (((((ranks.map Prod.fst)).map (fun q => (q, val q))).map
        (fun oc => (oc.1, weight_function w oc.2 * oc.2))).map
          Prod.fst).Nodup := by
      rw [List.map_map]
      rw [show (Prod.fst ∘ fun oc : String × ℝ =>
        (oc.1, weight_function w oc.2 * oc.2)) = Prod.fst from rfl]
      exact hndchs
    have hlkw := lookupKey_map_value
      ((ranks.map Prod.fst).map (fun q => (q, val q)))
      (fun x => weight_function w x * x) p
    rw [hlk] at hlkw
    exact foldl_update_lookup _ ratings p _ hndw hlkw

/-- Witness for the amended C8 at weight -1 and the trial `{A: 1, B: 2}`
with zero ratings and the default model. -/
theorem negative_weight_applied_witness :
    (-1 : ℝ) < 0 ∧
    ((([("A", 1), ("B", 2)] : List (String × Int)).map Prod.fst).Nodup) ∧
    2 ≤ ([("A", 1), ("B", 2)] : List (String × Int)).length ∧
    "A" ∈ ([("A", 1), ("B", 2)] : List (String × Int)).map Prod.fst ∧
    (∃ chs f raw,
      get_rating_changes_multiplayer p_function (fun _ => 0)
        [("A", 1), ("B", 2)] 32 = some chs ∧
      lookupKey "A" chs = some raw ∧
      processTrial p_function 32 (fun _ => 0) [("A", 1), ("B", 2)] (-1) =
        some f ∧
      f "A" = (0:ℝ) + (-1) * raw) :=
  ⟨by norm_num, by decide, by decide, by decide,
    negative_weight_applied p_function (fun _ => 0) [("A", 1), ("B", 2)]
      32 (-1) "A" (by norm_num) (by decide) (by decide) (by decide)⟩

/-- Counterexample to C9 as stated: a trial with zero participants (fewer
than 2) is processed without failure, silently returning the ratings map
unchanged. -/
theorem empty_trial_no_failure_counterexample :
    ([] : List (String × Int)).length < 2 ∧
    processTrial p_function game_points_coefficient
      (fun _ : String => (0:ℝ)) [] 1 = some (fun _ : String => (0:ℝ)) :=
  ⟨by decide, rfl⟩

/-- C9 amended: a trial with exactly one participant fails, because
`math.comb(1, 2) = 0` makes the expected-score normalization divide by
zero (a ZeroDivisionError, not a dedicated InvalidTrial condition); but a
trial with zero participants does not fail: it is silently processed as a
no-op, returning the ratings map unchanged. -/
theorem small_trial_behavior :
    (∀ (P : ℝ → ℝ) (K : ℝ) (ratings : String → ℝ) (w : ℝ),
      processTrial P K ratings [] w = some ratings) ∧
    (∀ (P : ℝ → ℝ) (K : ℝ) (ratings : String → ℝ) (w : ℝ) (k : String)
      (rk : Int), processTrial P K ratings [(k, rk)] w = none) := by
  constructor
  · intro P K ratings w
    rfl
  · intro P K ratings w k rk
    have hexp : get_expected_score_multiplayer P k [(k, ratings k)] =
        none := by
      simp [get_expected_score_multiplayer, lookupKey, Nat.choose]
    simp [processTrial, get_rating_changes_multiplayer, optionMapList,
      hexp]
